import Mathlib

/-!
The clink `history` command: a shallow embedding of `loader/history.cpp`

The history store (`history_db`), the string classes, `getopt` and the console
are collaborators of the file.  The store is represented by the line sequence
its iterator yields and by the answers it gives; everything the command does
to the outside world is recorded as a list of `event`s in program order.
-/

namespace Clink

/-! ## Machine integers -/

/-- The constant `UINT_MAX` of a 32-bit `unsigned int`. -/
def UINT_MAX : Nat := 4294967295

/-- Reduction of a value into a 32-bit `unsigned int`. -/
def u32 (n : Nat) : Nat := n % 4294967296

/-- The value of a byte held in a `char`, which is a signed 8-bit type on the
Windows targets this file is built for. -/
def char_value (b : Nat) : Int :=
  if b % 256 < 128 then ((b % 256 : Nat) : Int) else ((b % 256 : Nat) : Int) - 256

/-- Conversion of an `int` to `wchar_t`, an unsigned 16-bit code unit. -/
def wchar_t (v : Int) : Nat := (v % 65536).toNat

/-- The bytes of a C string: everything before the first NUL. -/
def c_str : List Nat → List Nat
  | [] => []
  | b :: rest => if b % 256 = 0 then [] else b :: c_str rest

/-! ## The history store as seen by this file -/

/-- Modelled from the spec: one line of the store as the forward iterator
yields it (`history_db::iter::next` fills the text and returns the identifier,
`get_bank` gives the provenance tag). -/
structure history_line where
  id : Nat
  bank : Nat
  text : List Nat
deriving DecidableEq, Repr

/-- Modelled from the spec: the history store (`history_db`, declared in
`history/history_db.h`).  `lines` is the sequence a fresh iterator yields,
`remove_result` the answer of `remove(line_id)`, `expand_result` the text
`expand` produces, and `has_master`, `has_session` the answers of `has_bank`. -/
structure history_db where
  lines : List history_line
  has_master : Bool
  has_session : Bool
  remove_result : Nat → Bool
  expand_result : List Char → List Char

/-- Modelled from the spec: the iterator protocol.  `next` returns the
identifier of the line it yields and `0` once the sequence is exhausted, so a
line of a well-formed store has a non-zero identifier; its bank indexes the
two-element tally `num_from`. -/
def valid_store (lines : List history_line) : Prop :=
  ∀ l ∈ lines, l.id ≠ 0 ∧ l.bank < 2

instance (lines : List history_line) : Decidable (valid_store lines) := by
  unfold valid_store; infer_instance

/-- Modelled from the spec: `history_db::iter::next`.  Returns the identifier
(0 when exhausted) and the iterator after the call. -/
def iter_next : List history_line → Nat × List history_line
  | [] => (0, [])
  | l :: rest => (l.id, rest)

/-! ## Observable effects -/

/-- One piece appended to the UTF-16 buffer of `print_history_item`. -/
inductive wchunk where
  /-- The call `to_utf16(*utf16, tmpi)` on a run of bytes. -/
  | conv (run : List Nat)
  /-- The call `utf16->concat(units, n)`. -/
  | units (u : List Nat)
deriving DecidableEq, Repr

/-- What the command does to the outside world. -/
inductive event where
  /-- Construction of a `history_scope` (settings loaded, store initialised,
  diagnostic output enabled when the argument is true). -/
  | scope_open (diag : Bool)
  /-- The call `history->read_lines(...)`, a fresh iterator. -/
  | read_lines
  | db_add (line : List Char)
  | db_remove (id : Nat)
  | db_clear
  | db_compact (force uniq : Bool)
  | db_expand (line : List Char)
  | load_rl_history (can_clean : Bool)
  /-- The call `WriteConsoleW` with the buffer built from these pieces. -/
  | write_console (buf : List wchunk)
  /-- The call `puts(utf8)`: the bytes followed by a newline. -/
  | puts_bytes (bytes : List Nat)
  /-- Text written to standard output by `puts` or `printf`. -/
  | stdout (text : String)
  /-- Text written to standard error. -/
  | stderr (text : String)
  /-- The usage text written by `print_help`. -/
  | help
deriving DecidableEq, Repr

/-! ## `print_history_item` -/

/-- The test `*walk >= 0x20 || *walk == 0x09` of the inner loop. -/
def in_run (b : Nat) : Bool :=
  decide (char_value b ≥ 0x20) || decide (char_value b = 0x09)

/-- The guarded call `if (walk > begin) to_utf16(...)`. -/
def flush_run (run : List Nat) : List wchunk :=
  if run = [] then [] else [wchunk.conv run]

/-- The `for (const char* walk = utf8; *walk;)` loop of `print_history_item`.
The first argument is the text from `walk` on (the terminating NUL is the end
of the list), the second the bytes between `begin` and `walk`. -/
def translate_walk : List Nat → List Nat → List wchunk
  | [], run => flush_run run
  | b :: rest, run =>
    if in_run b then translate_walk rest (run ++ [b])
    else if char_value b = 0 then flush_run run
    else flush_run run ++
      wchunk.units [94, wchar_t (char_value b + 65 - 1)] :: translate_walk rest []

/-- The function `print_history_item(hout, utf8, utf16)`; `translate` says
whether a UTF-16 buffer was passed. -/
def print_history_item (utf8 : List Nat) (translate : Bool) : event :=
  if translate then
    event.write_console (translate_walk utf8 [] ++ [wchunk.units [13, 10]])
  else
    event.puts_bytes (c_str utf8)

/-! ## `print_history(unsigned int, bool)` -/

/-- Decimal digits of a number as bytes (`%u`). -/
def fmt_u (n : Nat) : List Nat := (Nat.toDigits 10 n).map Char.toNat

/-- The conversion `%5u`: right-aligned in a field of at least 5 characters. -/
def fmt_5u (n : Nat) : List Nat :=
  List.replicate (5 - (fmt_u n).length) 32 ++ fmt_u n

/-- The text `utf8` formatted for one line: `"%.*s"` when bare, else
`"%5u  %.*s"`. -/
def format_line (bare : Bool) (index : Nat) (text : List Nat) : List Nat :=
  if bare then c_str text else fmt_5u index ++ [32, 32] ++ c_str text

/-- The counting pass `while (iter.next(line)) ++count;`. -/
def count_pass : List history_line → Nat → Nat
  | [], count => count
  | l :: rest, count => if l.id = 0 then count else count_pass rest (u32 (count + 1))

/-- The loop `for (i = 0; i < skip; ++i, ++index, iter.next(line));`: returns
the index and the iterator after `skip` rounds. -/
def skip_pass : Nat → Nat → List history_line → Nat × List history_line
  | 0, index, it => (index, it)
  | n + 1, index, it => skip_pass n (u32 (index + 1)) (iter_next it).2

/-- The statement `num_from[iter.get_bank()]++`. -/
def bump (num_from : Nat × Nat) (bank : Nat) : Nat × Nat :=
  if bank = 0 then (u32 (num_from.1 + 1), num_from.2)
  else if bank = 1 then (num_from.1, u32 (num_from.2 + 1))
  else num_from

/-- The loop `for (; iter.next(line); ++index)` that prints the lines; returns
the items printed and the tally `num_from`. -/
def emit_pass (bare translate s_diag : Bool) :
    List history_line → Nat → Nat × Nat → List event × (Nat × Nat)
  | [], _, num_from => ([], num_from)
  | l :: rest, index, num_from =>
    if l.id = 0 then ([], num_from)
    else
      let num_from1 := if s_diag then bump num_from l.bank else num_from
      let r := emit_pass bare translate s_diag rest (u32 (index + 1)) num_from1
      (print_history_item (format_line bare index l.text) translate :: r.1, r.2)

/-- The diagnostic report after the listing. -/
def diag_report (db : history_db) (num_from : Nat × Nat) : List event :=
  (if db.has_master then
    [event.stderr ("... printed " ++ toString num_from.1 ++ " lines from master bank\n")]
   else []) ++
  (if db.has_session then
    [event.stderr ("... printed " ++ toString num_from.2 ++ " lines from session bank\n")]
   else []) ++
  [event.load_rl_history false]

/-- The function `print_history(unsigned int tail_count, bool bare)`.
`translate` is `is_console(hout)` and `s_diag` the diagnostic flag. -/
def print_history (db : history_db) (translate s_diag : Bool)
    (tail_count : Nat) (bare : Bool) : List event :=
  let bounded := decide (tail_count ≠ UINT_MAX)
  let count := if bounded then count_pass db.lines 0 else 0
  let skip := if count > tail_count then u32 (count - tail_count) else 0
  let s := skip_pass skip 1 db.lines
  let r := emit_pass bare translate s_diag s.2 s.1 (0, 0)
  [event.scope_open s_diag] ++ (if bounded then [event.read_lines] else []) ++
    [event.read_lines] ++ r.1 ++ (if s_diag then diag_report db r.2 else [])

/-! ## `print_history(const char*, bool)` -/

/-- The digit loop of `print_history(const char* arg, bool bare)`: `none` when
a character is not a digit, else the accumulated `unsigned int`. -/
def parse_tail_count : List Char → Nat → Option Nat
  | [], tail_count => some tail_count
  | c :: rest, tail_count =>
    if char_value c.toNat < 48 ∨ char_value c.toNat > 57 then none
    else parse_tail_count rest (u32 (u32 (tail_count * 10) + (c.toNat % 256 - 48)))

/-- The function `print_history(const char* arg, bool bare)`; `none` stands
for the null pointer and for the result `false`. -/
def print_history_arg (db : history_db) (translate s_diag : Bool)
    (arg : Option (List Char)) (bare : Bool) : Option (List event) :=
  match arg with
  | none => some (print_history db translate s_diag UINT_MAX bare)
  | some a =>
    match parse_tail_count a 0 with
    | none => none
    | some tail_count => some (print_history db translate s_diag tail_count bare)

/-! ## The operations -/

/-- The function `add(const char* line)`. -/
def add (s_diag : Bool) (line : List Char) : List event × Int :=
  ([event.scope_open s_diag, event.db_add line,
    event.stdout ("Added \x27" ++ String.mk line ++ "\x27 to history.\n")], 0)

/-- The loop `for (int i = index - 1; i > 0 && iter.next(line); --i);` of
`remove`: the iterator after it. -/
def seek : Nat → List history_line → List history_line
  | 0, it => it
  | i + 1, it => if (iter_next it).1 = 0 then (iter_next it).2 else seek i (iter_next it).2

/-- The function `remove(int index)`. -/
def remove (db : history_db) (s_diag : Bool) (index : Int) : List event × Int :=
  if index ≤ 0 then ([event.scope_open s_diag], 1)
  else
    let it := seek (index - 1).toNat db.lines
    let line_id := (iter_next it).1
    let ok := db.remove_result line_id
    ([event.scope_open s_diag, event.read_lines, event.db_remove line_id,
      event.stdout (if ok then "Deleted item " ++ toString index ++ ".\n"
        else "Unable to delete history item " ++ toString index ++ ".\n")],
     if ok then 0 else 1)

/-- The function `clear()`. -/
def clear (s_diag : Bool) : List event × Int :=
  ([event.scope_open s_diag, event.db_clear, event.stdout "History cleared.\n"], 0)

/-- The function `compact(bool uniq)`. -/
def compact (db : history_db) (s_diag uniq : Bool) : List event × Int :=
  if db.has_master then
    ([event.scope_open s_diag, event.db_compact true uniq,
      event.stdout "History compacted.\n"], 0)
  else
    ([event.scope_open s_diag,
      event.stdout "History is not saved, so compact has nothing to do.\n"], 0)

/-- The function `print_expansion(const char* line)`. -/
def print_expansion (db : history_db) (s_diag : Bool) (line : List Char) :
    List event × Int :=
  ([event.scope_open s_diag, event.load_rl_history false, event.db_expand line,
    event.stdout (String.mk (db.expand_result line) ++ "\n")], 0)

/-- The function `print_help()`. -/
def print_help : List event × Int := ([event.help], 1)

/-- The loop of `get_line`, over the words `argv[start..end)`. -/
def get_line_loop : List (List Char) → List Char → List Char
  | [], out => out
  | a :: rest, out => get_line_loop rest ((if out ≠ [] then out ++ [' '] else out) ++ a)

/-- The function `get_line(start, end, argv, out)`. -/
def get_line (start stop : Nat) (argv : List (List Char)) (out : List Char) : List Char :=
  get_line_loop ((argv.take stop).drop start) out

/-! ## C library functions -/

/-- The predicate `isspace` of the C locale. -/
def isspace (c : Char) : Bool := c = ' ' || (9 ≤ c.toNat && c.toNat ≤ 13)

/-- The digits `atoi` accumulates. -/
def atoi_digits : List Char → Nat → Nat
  | [], acc => acc
  | c :: rest, acc =>
    if 48 ≤ c.toNat ∧ c.toNat ≤ 57 then atoi_digits rest (acc * 10 + (c.toNat - 48)) else acc

/-- The C function `atoi`: leading white space, an optional sign, digits; out
of range values saturate as in the Microsoft C runtime. -/
def atoi (s : List Char) : Int :=
  match s.dropWhile isspace with
  | '-' :: r => max (-(atoi_digits r 0 : Int)) (-2147483648)
  | '+' :: r => min (atoi_digits r 0 : Int) 2147483647
  | r => min (atoi_digits r 0 : Int) 2147483647

/-- ASCII lower-casing, as `_stricmp` applies to each character. -/
def tolower (c : Char) : Char :=
  if 65 ≤ c.toNat ∧ c.toNat ≤ 90 then Char.ofNat (c.toNat + 32) else c

/-- The test `_stricmp(a, b) == 0`. -/
def stricmp_eq (a b : List Char) : Bool := a.map tolower = b.map tolower

/-- The state of `getopt`: the cursor `optind`, the rest of the option cluster
being scanned (`nextchar`) and `optarg`. -/
structure getopt_state where
  optind : Nat
  nextchar : List Char
  optarg : List Char
deriving DecidableEq, Repr

/-- The C function `strchr` on an option string: the tail starting at the
first occurrence of `c`. -/
def strchr : List Char → Char → Option (List Char)
  | [], _ => none
  | d :: rest, c => if d = c then some (d :: rest) else strchr rest c

/-- Modelled from the spec: the first half of GNU `getopt`, run when the
current cluster is used up.  It steps to the next element of `argv`: the scan
ends (`none`) at the end of the vector, after a `--` (which is skipped) and,
the option string starting with `+`, at the first word that is not an option. -/
def getopt_advance (argv : List (List Char)) (st : getopt_state) : Option getopt_state :=
  if st.nextchar ≠ [] then some st
  else
    match argv.get? st.optind with
    | none => none
    | some arg =>
      match arg with
      | '-' :: c :: cs => some { st with nextchar := c :: cs }
      | _ => none

/-- Modelled from the spec: GNU `getopt(argc, argv, optstring)` for short
options, with `optstring` given without its leading `+`.  `optind` moves past
an element only when its last character is taken; an option followed by `:`
takes the rest of the cluster or the next element as `optarg`.  The result
`none` stands for -1.  Optional arguments (`::`) do not occur in the option
string of this file, and the messages `getopt` writes to standard error are
not recorded. -/
def getopt (argv : List (List Char)) (optstring : List Char) (st : getopt_state) :
    Option Char × getopt_state :=
  if st.nextchar = [] ∧ argv.get? st.optind = some ['-', '-'] then
    (none, { st with optind := st.optind + 1 })
  else
    match getopt_advance argv st with
    | none => (none, st)
    | some st1 =>
      match st1.nextchar with
      | [] => (none, st1)
      | c :: nc =>
        let optind1 := if nc = [] then st1.optind + 1 else st1.optind
        match strchr optstring c with
        | none => (some '?', { st1 with optind := optind1, nextchar := nc })
        | some temp =>
          if c = ':' ∨ c = ';' then (some '?', { st1 with optind := optind1, nextchar := nc })
          else
            match temp with
            | _ :: ':' :: _ =>
              if nc ≠ [] then
                (some c, { optind := optind1 + 1, nextchar := [], optarg := nc })
              else
                match argv.get? optind1 with
                | none =>
                  (some (if optstring.head? = some ':' then ':' else '?'),
                    { st1 with optind := optind1, nextchar := [] })
                | some a => (some c, { optind := optind1 + 1, nextchar := [], optarg := a })
            | _ => (some c, { st1 with optind := optind1, nextchar := nc })

/-! ## The two grammars -/

/-- The function `history_bash(argc, argv)`: the events, the result and the
state `getopt` is left in.  Every case of the `switch` returns, so `getopt` is
called once. -/
def history_bash (db : history_db) (s_diag : Bool) (argv : List (List Char))
    (st : getopt_state) : (List event × Int) × getopt_state :=
  match getopt argv "?cd:ps".toList st with
  | (none, st1) => (([], -1), st1)
  | (some i, st1) =>
    if i = 'c' then (clear s_diag, st1)
    else if i = 'd' then (remove db s_diag (atoi st1.optarg), st1)
    else if i = 'p' ∨ i = 's' then
      let line := get_line st1.optind argv.length argv []
      if line = [] then (print_help, st1)
      else if i = 's' then (add s_diag line, st1)
      else (print_expansion db s_diag line, st1)
    else if i = ':' ∨ i = '?' then (print_help, st1)
    else (([], -1), st1)

/-- The loop `while (*arg && *arg == *flag)` of `is_flag`: what is left of
both strings and the matched length. -/
def is_flag_walk : List Char → List Char → Nat → List Char × List Char × Nat
  | a :: arg, f :: flag, matched_len =>
    if a = f then is_flag_walk arg flag (u32 (matched_len + 1))
    else (a :: arg, f :: flag, matched_len)
  | arg, flag, matched_len => (arg, flag, matched_len)

/-- The function `is_flag(arg, flag, min_len)`; the default `min_len` of the
source is `UINT_MAX`. -/
def is_flag (arg flag : List Char) (min_len : Nat) : Bool :=
  match is_flag_walk arg flag 0 with
  | (arg1, flag1, matched_len) =>
    if arg1 ≠ [] then false
    else if flag1 ≠ [] ∧ matched_len < min_len then false
    else true

/-- The booleans the flag scan of `history` records. -/
structure flags where
  bare : Bool
  diag : Bool
  uniq : Bool
deriving DecidableEq, Repr

/-- The loop `for (int i = 1; i < argc; ++i)` at the head of `history`, with
`argc` the length of `argv`.  `none` is the early `return print_help()`.  The
first argument bounds the number of rounds. -/
def scan_flags : Nat → Nat → List (List Char) → flags → Option (List (List Char) × flags)
  | 0, _, argv, f => some (argv, f)
  | fuel + 1, i, argv, f =>
    if i < argv.length then
      let a := argv.getD i []
      if is_flag a "--help".toList 3 || is_flag a "-h".toList UINT_MAX then none
      else if is_flag a "--bare".toList 3 then
        scan_flags fuel i (argv.eraseIdx i) { f with bare := true }
      else if is_flag a "--diag".toList 3 then
        scan_flags fuel i (argv.eraseIdx i) { f with diag := true }
      else if is_flag a "--unique".toList 3 then
        scan_flags fuel i (argv.eraseIdx i) { f with uniq := true }
      else scan_flags fuel (i + 1) argv f
    else some (argv, f)

/-- The native grammar of `history`, from `if (argc > 1)` to the end. -/
def history_native (db : history_db) (translate : Bool) (f : flags)
    (argv : List (List Char)) : List event × Int :=
  let argc := argv.length
  let verb := argv.getD 1 []
  if argc > 1 ∧ stricmp_eq verb "clear".toList then clear f.diag
  else if argc > 1 ∧ stricmp_eq verb "compact".toList then compact db f.diag f.uniq
  else if argc > 1 ∧ stricmp_eq verb "delete".toList then
    if argc < 3 then
      (event.stdout "history: argument required for verb \x27delete\x27\n" :: print_help.1,
        print_help.2)
    else remove db f.diag (atoi (argv.getD 2 []))
  else if argc > 1 ∧ stricmp_eq verb "add".toList then
    if get_line 2 argc argv [] = [] then print_help
    else add f.diag (get_line 2 argc argv [])
  else if argc > 1 ∧ stricmp_eq verb "expand".toList then
    if get_line 2 argc argv [] = [] then print_help
    else print_expansion db f.diag (get_line 2 argc argv [])
  else if argc > 2 then print_help
  else
    match print_history_arg db translate f.diag (if argc > 1 then some verb else none) f.bare with
    | none => print_help
    | some evs => (evs, 0)

/-- The function `history(argc, argv)`, entered with the `getopt` state `st`
(the dispatcher sets `optind` to 1) and the diagnostic flag clear.  The events
of the Bash grammar come before those of the native one. -/
def history (db : history_db) (translate : Bool) (st : getopt_state)
    (argv : List (List Char)) : List event × Int :=
  match scan_flags argv.length 1 argv ⟨false, false, false⟩ with
  | none => print_help
  | some (argv1, f) =>
    let b := history_bash db f.diag argv1 st
    if b.2.optind ≠ 1 then b.1
    else
      let n := history_native db translate f argv1
      (b.1.1 ++ n.1, n.2)

/-- The `getopt` state the dispatcher hands over: cursor at 1, no cluster
under way. -/
def getopt_start : getopt_state := ⟨1, [], []⟩

/-! ## Observations on a run -/

/-- Whether an event is a call of `print_history_item` reaching the output. -/
def is_item : event → Bool
  | event.write_console _ => true
  | event.puts_bytes _ => true
  | _ => false

/-- The history items a run writes to standard output, in order. -/
def items (evs : List event) : List event := evs.filter is_item

/-- The message lines a run writes to standard output with `puts`/`printf`. -/
def printed : List event → List String
  | [] => []
  | event.stdout t :: rest => t :: printed rest
  | _ :: rest => printed rest

/-- The identifiers a run hands to the removal operation of the store. -/
def removals : List event → List Nat
  | [] => []
  | event.db_remove id :: rest => id :: removals rest
  | _ :: rest => removals rest

/-- Whether an event is a mutation of the store (add, remove, clear, compact). -/
def is_mutation : event → Bool
  | event.db_add _ => true
  | event.db_remove _ => true
  | event.db_clear => true
  | event.db_compact _ _ => true
  | _ => false

/-- The item `print_history` writes for the line `l` under ordinal `i`. -/
def item_of (bare translate : Bool) (p : Nat × history_line) : event :=
  print_history_item (format_line bare p.1 p.2.text) translate

/-! ## Concrete stores -/

/-- The bytes of an ASCII text. -/
def bytes (s : String) : List Nat := s.toList.map Char.toNat

/-- The store of the scenarios: three lines, removal succeeding exactly on the
identifiers present. -/
def store3 : history_db :=
  { lines := [⟨11, 0, bytes "echo 1"⟩, ⟨12, 0, bytes "echo 2"⟩, ⟨13, 1, bytes "echo 3"⟩],
    has_master := true,
    has_session := true,
    remove_result := fun id => decide (id = 11 ∨ id = 12 ∨ id = 13),
    expand_result := fun line => line }

/-- A store of two lines that refuses every removal. -/
def store2 : history_db :=
  { lines := [⟨11, 0, bytes "echo 1"⟩, ⟨12, 0, bytes "echo 2"⟩],
    has_master := true,
    has_session := false,
    remove_result := fun _ => false,
    expand_result := fun line => line }

/-- The three-line store when the store refuses every removal. -/
def store3_locked : history_db := { store3 with remove_result := fun _ => false }

/-- Modelled from the spec: the store after `remove(identifier)`; the line with
that identifier is gone when the store reports success. -/
def after_remove (db : history_db) (id : Nat) : history_db :=
  { db with
    lines := if db.remove_result id then db.lines.filter (fun l => decide (l.id ≠ id))
      else db.lines }

/-- The non-negative integer a string of decimal digits denotes. -/
def decimal_value (s : List Char) : Nat :=
  s.foldl (fun n c => n * 10 + (c.toNat - 48)) 0

/-- A string made of the characters `0` to `9` only. -/
def is_digits (s : List Char) : Prop := ∀ c ∈ s, 48 ≤ c.toNat ∧ c.toNat ≤ 57

instance (s : List Char) : Decidable (is_digits s) := by
  unfold is_digits; infer_instance

/-- A byte sequence without NUL. -/
def nul_free (line : List Nat) : Prop := ∀ x ∈ line, x % 256 ≠ 0

instance (line : List Nat) : Decidable (nul_free line) := by
  unfold nul_free; infer_instance

/-! ## Vocabulary of the statements -/

/-- The test of the flag scan for a request of help. -/
def is_help (a : List Char) : Bool :=
  is_flag a "--help".toList 3 || is_flag a "-h".toList UINT_MAX

/-- The test of the flag scan for `--bare`. -/
def is_bare (a : List Char) : Bool := is_flag a "--bare".toList 3

/-- The test of the flag scan for `--diag`. -/
def is_diag (a : List Char) : Bool := is_flag a "--diag".toList 3

/-- The test of the flag scan for `--unique`. -/
def is_uniq (a : List Char) : Bool := is_flag a "--unique".toList 3

/-- The flags `history` looks for, each with the minimum length it passes to
`is_flag`. -/
def flag_table : List (List Char × Nat) :=
  [("--help".toList, 3), ("-h".toList, UINT_MAX), ("--bare".toList, 3),
    ("--diag".toList, 3), ("--unique".toList, 3)]

/-- The prefixes of `flag` that are the whole flag or have at least `min_len`
characters. -/
def accepted (flag : List Char) (min_len : Nat) : List (List Char) :=
  flag.inits.filter (fun a => decide (a = flag ∨ min_len ≤ a.length))

/-- Whether a word is one of the verbs of the native grammar, compared as
`_stricmp` does. -/
def is_native_verb (w : List Char) : Bool :=
  stricmp_eq w "clear".toList || stricmp_eq w "compact".toList ||
    stricmp_eq w "delete".toList || stricmp_eq w "add".toList ||
    stricmp_eq w "expand".toList

/-- A C string holds bytes. -/
def is_bytes (w : List Char) : Prop := ∀ c ∈ w, c.toNat < 256

instance (w : List Char) : Decidable (is_bytes w) := by
  unfold is_bytes; infer_instance

/-- The events a listing is made of. -/
def is_listing_event : event → Bool
  | event.scope_open _ => true
  | event.read_lines => true
  | event.write_console _ => true
  | event.puts_bytes _ => true
  | event.stderr _ => true
  | event.load_rl_history _ => true
  | _ => false

/-- The results of the single operations of the command, as the functions of
the source produce them; `add` and `print_expansion` with a non-empty line. -/
inductive operation (db : history_db) (translate : Bool) : List event × Int → Prop where
  | of_list (d bare : Bool) (n : Nat) :
      operation db translate (print_history db translate d n bare, 0)
  | of_add (d : Bool) (line : List Char) (h : line ≠ []) :
      operation db translate (Clink.add d line)
  | of_remove (d : Bool) (index : Int) : operation db translate (Clink.remove db d index)
  | of_clear (d : Bool) : operation db translate (Clink.clear d)
  | of_compact (d u : Bool) : operation db translate (Clink.compact db d u)
  | of_expand (d : Bool) (line : List Char) (h : line ≠ []) :
      operation db translate (Clink.print_expansion db d line)

/-! ## `dispatch_verb` (loader.cpp) -/

/-- The verbs of the table `handlers` of `dispatch_verb`, in table order. -/
def handler_names : List (List Char) :=
  ["autorun".toList, "drawtest".toList, "echo".toList, "history".toList, "info".toList,
    "inject".toList, "set".toList, "installscripts".toList, "uninstallscripts".toList,
    "testbed".toList]

/-- What a call of `dispatch_verb` did: the handlers it called (table index,
`optind` on entry, argument vector), its result, `optind` on return, and
whether the unknown-verb message and the usage were printed. -/
structure dispatch_result where
  calls : List (Nat × Nat × List (List Char))
  ret : Int
  optind : Nat
  unknown : Bool
deriving DecidableEq, Repr

/-- The loop of `dispatch_verb` over the rest of the table, `i` the index of
its first entry.  `handler i optind argv` is the result of the i-th handler and
the `optind` it leaves. -/
def dispatch_loop (handler : Nat → Nat → List (List Char) → Int × Nat)
    (verb : List Char) (argv : List (List Char)) (optind : Nat) :
    List (List Char) → Nat → dispatch_result
  | [], _ => ⟨[], 0, optind, true⟩
  | name :: rest, i =>
    if verb = name then
      let t := optind
      let r := handler i 1 argv
      ⟨[(i, 1, argv)], r.1, t, false⟩
    else dispatch_loop handler verb argv optind rest (i + 1)

/-- The function `dispatch_verb(verb, argc, argv)`, entered with the given
`optind`. -/
def dispatch_verb (handler : Nat → Nat → List (List Char) → Int × Nat)
    (verb : List Char) (argv : List (List Char)) (optind : Nat) : dispatch_result :=
  dispatch_loop handler verb argv optind handler_names 0

/-- The handler table with `history` at its place (index 3) on the three-line
store, every other handler returning 7; each leaves `optind` at 9. -/
def sample_handler (i optind : Nat) (argv : List (List Char)) : Int × Nat :=
  if i = 3 then ((history store3 false ⟨optind, [], []⟩ argv).2, 9) else (7, 9)

/-! ## Lemmas on the listing passes -/

theorem valid_store_cons {l : history_line} {rest : List history_line}
    (h : valid_store (l :: rest)) : l.id ≠ 0 ∧ valid_store rest := by
  refine ⟨(h l (List.mem_cons_self _ _)).1, ?_⟩
  intro x hx
  exact h x (List.mem_cons_of_mem _ hx)

theorem valid_store_drop {lines : List history_line} (h : valid_store lines) (n : Nat) :
    valid_store (lines.drop n) := by
  intro x hx
  exact h x (List.mem_of_mem_drop hx)

theorem count_pass_eq (lines : List history_line) (hv : valid_store lines) :
    ∀ count, count + lines.length < 4294967296 →
      count_pass lines count = count + lines.length := by
  induction lines with
  | nil => intro count _; simp [count_pass]
  | cons l rest ih =>
    intro count h
    obtain ⟨hid, hrest⟩ := valid_store_cons hv
    simp only [List.length_cons] at h
    have hw : u32 (count + 1) = count + 1 := by
      unfold u32; exact Nat.mod_eq_of_lt (by omega)
    simp only [count_pass, hid, if_false, hw, List.length_cons]
    rw [ih hrest (count + 1) (by omega)]
    omega

theorem iter_next_snd (it : List history_line) : (iter_next it).2 = it.drop 1 := by
  cases it <;> rfl

theorem skip_pass_snd : ∀ (n index : Nat) (it : List history_line),
    (skip_pass n index it).2 = it.drop n := by
  intro n
  induction n with
  | zero => intro index it; simp [skip_pass]
  | succ n ih =>
    intro index it
    simp only [skip_pass, iter_next_snd]
    rw [ih, List.drop_drop]
    congr 1; omega

theorem skip_pass_fst : ∀ (n index : Nat) (it : List history_line),
    index + n < 4294967296 → (skip_pass n index it).1 = index + n := by
  intro n
  induction n with
  | zero => intro index it _; simp [skip_pass]
  | succ n ih =>
    intro index it h
    have hw : u32 (index + 1) = index + 1 := by
      unfold u32; exact Nat.mod_eq_of_lt (by omega)
    simp only [skip_pass, hw]
    rw [ih (index + 1) _ (by omega)]
    omega

theorem emit_pass_items (bare translate s_diag : Bool) :
    ∀ (it : List history_line) (index : Nat) (num_from : Nat × Nat),
      valid_store it → index + it.length ≤ 4294967296 →
      (emit_pass bare translate s_diag it index num_from).1 =
        (it.enumFrom index).map (item_of bare translate) := by
  intro it
  induction it with
  | nil => intro index num_from _ _; simp [emit_pass]
  | cons l rest ih =>
    intro index num_from hv h
    obtain ⟨hid, hrest⟩ := valid_store_cons hv
    simp only [List.length_cons] at h
    simp only [emit_pass, hid, if_false, List.enumFrom_cons, List.map_cons]
    congr 1
    cases rest with
    | nil => simp [emit_pass]
    | cons l2 rest2 =>
      simp only [List.length_cons] at h
      have hw : u32 (index + 1) = index + 1 := by
        unfold u32; exact Nat.mod_eq_of_lt (by omega)
      rw [hw]
      exact ih (index + 1) _ hrest (by simp only [List.length_cons]; omega)

theorem items_map_item_of (bare translate : Bool) (ps : List (Nat × history_line)) :
    items (ps.map (item_of bare translate)) = ps.map (item_of bare translate) := by
  induction ps with
  | nil => rfl
  | cons p rest ih =>
    have hp : is_item (item_of bare translate p) = true := by
      unfold item_of print_history_item
      cases translate <;> rfl
    unfold items at ih ⊢
    simp only [List.map_cons, List.filter_cons, hp, if_true, ih]

theorem items_diag_report (db : history_db) (num_from : Nat × Nat) :
    items (diag_report db num_from) = [] := by
  unfold diag_report items
  cases db.has_master <;> cases db.has_session <;> rfl

/-- The items of a listing: the last `min tail_count T` lines, numbered up to
`T`. -/
theorem print_history_items (db : history_db) (translate s_diag bare : Bool)
    (tail_count : Nat) (hv : valid_store db.lines)
    (hT : db.lines.length < 4294967296) (hN : tail_count ≤ UINT_MAX) :
    items (print_history db translate s_diag tail_count bare) =
      ((db.lines.drop (db.lines.length - min tail_count db.lines.length)).enumFrom
        (db.lines.length - min tail_count db.lines.length + 1)).map
        (item_of bare translate) := by
  have hskip : (if (if decide (tail_count ≠ UINT_MAX) = true then count_pass db.lines 0 else 0)
        > tail_count
      then u32 ((if decide (tail_count ≠ UINT_MAX) = true then count_pass db.lines 0 else 0)
        - tail_count) else 0) = db.lines.length - min tail_count db.lines.length := by
    have hc := count_pass_eq db.lines hv 0 (by omega)
    unfold UINT_MAX at hN ⊢
    by_cases hb : tail_count = 4294967295
    · subst hb
      simp
      omega
    · simp only [ne_eq, hb, not_false_eq_true, decide_True, if_true, hc, Nat.zero_add]
      by_cases hgt : db.lines.length > tail_count
      · have hw : u32 (db.lines.length - tail_count) = db.lines.length - tail_count := by
          unfold u32; exact Nat.mod_eq_of_lt (by omega)
        rw [if_pos hgt, hw]
        omega
      · rw [if_neg hgt]
        omega
  have hk : db.lines.length - min tail_count db.lines.length ≤ db.lines.length :=
    Nat.sub_le _ _
  generalize db.lines.length - min tail_count db.lines.length = k at hskip hk ⊢
  have hitems : (emit_pass bare translate s_diag (skip_pass k 1 db.lines).2
      (skip_pass k 1 db.lines).1 (0, 0)).1 =
      ((db.lines.drop k).enumFrom (k + 1)).map (item_of bare translate) := by
    rw [skip_pass_snd]
    by_cases hkL : k = db.lines.length
    · rw [hkL, List.drop_length]
      simp [emit_pass]
    · rw [skip_pass_fst _ _ _ (by omega), Nat.add_comm 1 k]
      exact emit_pass_items bare translate s_diag _ _ _ (valid_store_drop hv _)
        (by simp only [List.length_drop]; omega)
  have h2 : ∀ num_from, List.filter is_item
      (if s_diag = true then diag_report db num_from else []) = [] := by
    intro num_from
    cases s_diag
    · rfl
    · exact items_diag_report db _
  have h3 : List.filter is_item (if decide (tail_count ≠ UINT_MAX) = true
      then [event.read_lines] else []) = [] := by
    split <;> rfl
  have h1 := items_map_item_of bare translate ((db.lines.drop k).enumFrom (k + 1))
  unfold items at h1
  unfold print_history items
  simp only [hskip, List.filter_append, hitems, h1, h2, h3]
  simp [List.filter, is_item]

/-! ## Lemmas on `remove` -/

theorem seek_eq_drop : ∀ (n : Nat) (it : List history_line),
    valid_store it → seek n it = it.drop n := by
  intro n
  induction n with
  | zero => intro it _; simp [seek]
  | succ n ih =>
    intro it hv
    cases it with
    | nil => simp [seek, iter_next]
    | cons l rest =>
      obtain ⟨hid, hrest⟩ := valid_store_cons hv
      simp only [seek, iter_next, hid, if_false, List.drop_succ_cons]
      exact ih rest hrest

theorem remove_positive (db : history_db) (s_diag : Bool) (index : Int) (h : 1 ≤ index) :
    remove db s_diag index =
      ([event.scope_open s_diag, event.read_lines,
        event.db_remove (iter_next (seek (index - 1).toNat db.lines)).1,
        event.stdout
          (if db.remove_result (iter_next (seek (index - 1).toNat db.lines)).1 = true
            then "Deleted item " ++ toString index ++ ".\n"
            else "Unable to delete history item " ++ toString index ++ ".\n")],
       if db.remove_result (iter_next (seek (index - 1).toNat db.lines)).1 = true
         then 0 else 1) := by
  unfold remove
  rw [if_neg (by omega)]

theorem target_in_range (db : history_db) (index : Int) (hv : valid_store db.lines)
    (h1 : 1 ≤ index) (h2 : index ≤ db.lines.length) :
    ∃ l, db.lines.get? (index - 1).toNat = some l ∧
      (iter_next (seek (index - 1).toNat db.lines)).1 = l.id := by
  have hlt : (index - 1).toNat < db.lines.length := by omega
  refine ⟨db.lines.get ⟨(index - 1).toNat, hlt⟩, List.get?_eq_get hlt, ?_⟩
  rw [seek_eq_drop _ _ hv, List.drop_eq_getElem_cons hlt]
  rfl

theorem target_out_of_range (db : history_db) (index : Int) (hv : valid_store db.lines)
    (h : (db.lines.length : Int) < index) :
    (iter_next (seek (index - 1).toNat db.lines)).1 = 0 := by
  rw [seek_eq_drop _ _ hv, List.drop_eq_nil_of_le (by omega)]
  rfl

/-! ## Lemmas on the line codec and the tail count -/

theorem char_value_small (b : Nat) (h : b < 128) : char_value b = (b : Int) := by
  unfold char_value
  have h1 : b % 256 = b := Nat.mod_eq_of_lt (by omega)
  rw [h1, if_pos h]

theorem char_value_ne_zero (b : Nat) (h : b % 256 ≠ 0) : char_value b ≠ 0 := by
  unfold char_value
  have := Nat.mod_lt b (show 256 > 0 by decide)
  split <;> omega

theorem c_str_nul_free : ∀ (line : List Nat), nul_free line → c_str line = line := by
  intro line
  induction line with
  | nil => intro _; rfl
  | cons x rest ih =>
    intro h
    have hx : x % 256 ≠ 0 := h x (List.mem_cons_self _ _)
    have hrest : nul_free rest := fun y hy => h y (List.mem_cons_of_mem _ hy)
    simp only [c_str, hx, if_false, ih hrest]

theorem translate_walk_cons_run (x : Nat) (rest run : List Nat) (h : in_run x = true) :
    translate_walk (x :: rest) run = translate_walk rest (run ++ [x]) := by
  simp only [translate_walk, h, if_true]

theorem translate_walk_cons_ctrl (x : Nat) (rest run : List Nat) (h : in_run x = false)
    (h0 : char_value x ≠ 0) :
    translate_walk (x :: rest) run =
      flush_run run ++
        wchunk.units [94, wchar_t (char_value x + 65 - 1)] :: translate_walk rest [] := by
  simp only [translate_walk, h, Bool.false_eq_true, if_false, h0]

theorem translate_walk_control (b : Nat) (post : List Nat)
    (hb1 : 1 ≤ b) (hb2 : b ≤ 31) (hb3 : b ≠ 9) :
    ∀ (pre run : List Nat), nul_free pre →
      translate_walk (pre ++ b :: post) run =
        translate_walk pre run ++ wchunk.units [94, b + 64] :: translate_walk post [] := by
  have hcv : char_value b = (b : Int) := char_value_small b (by omega)
  have hrun : in_run b = false := by
    unfold in_run
    rw [hcv]
    simp only [Bool.or_eq_false_iff, decide_eq_false_iff_not]
    constructor <;> omega
  have hw : wchar_t (char_value b + 65 - 1) = b + 64 := by
    unfold wchar_t
    rw [hcv]
    omega
  have hnz : char_value b ≠ 0 := by rw [hcv]; omega
  intro pre
  induction pre with
  | nil =>
    intro run _
    rw [List.nil_append, translate_walk_cons_ctrl b post run hrun hnz, hw]
    rfl
  | cons x rest ih =>
    intro run h
    have hx : char_value x ≠ 0 := char_value_ne_zero x (h x (List.mem_cons_self _ _))
    have hrest : nul_free rest := fun y hy => h y (List.mem_cons_of_mem _ hy)
    rw [List.cons_append]
    by_cases hr : in_run x = true
    · rw [translate_walk_cons_run x _ run hr, translate_walk_cons_run x _ run hr]
      exact ih _ hrest
    · have hr2 : in_run x = false := by simpa using hr
      rw [translate_walk_cons_ctrl x _ run hr2 hx, translate_walk_cons_ctrl x _ run hr2 hx,
        ih [] hrest]
      simp only [List.append_assoc, List.cons_append]

theorem foldl_digits_mod (s : List Char) : ∀ (x y : Nat),
    x % 4294967296 = y % 4294967296 →
      s.foldl (fun n c => n * 10 + (c.toNat - 48)) x % 4294967296 =
        s.foldl (fun n c => n * 10 + (c.toNat - 48)) y % 4294967296 := by
  induction s with
  | nil => intro x y h; simpa using h
  | cons c rest ih =>
    intro x y h
    simp only [List.foldl_cons]
    apply ih
    omega

theorem parse_tail_count_eq (s : List Char) : ∀ (tail_count : Nat),
    is_digits s → tail_count < 4294967296 →
      parse_tail_count s tail_count =
        some (s.foldl (fun n c => n * 10 + (c.toNat - 48)) tail_count % 4294967296) := by
  induction s with
  | nil =>
    intro tail_count _ h
    simp only [parse_tail_count, List.foldl_nil, Nat.mod_eq_of_lt h]
  | cons c rest ih =>
    intro tail_count hd h
    have hc : 48 ≤ c.toNat ∧ c.toNat ≤ 57 := hd c (List.mem_cons_self _ _)
    have hrest : is_digits rest := fun y hy => hd y (List.mem_cons_of_mem _ hy)
    have hcv : char_value c.toNat = (c.toNat : Int) := char_value_small _ (by omega)
    have hno : ¬ (char_value c.toNat < 48 ∨ char_value c.toNat > 57) := by
      rw [hcv]; omega
    have hm : c.toNat % 256 = c.toNat := Nat.mod_eq_of_lt (by omega)
    simp only [parse_tail_count, hno, if_false, List.foldl_cons, hm]
    rw [ih _ hrest (by unfold u32; exact Nat.mod_lt _ (by decide))]
    congr 1
    apply foldl_digits_mod
    unfold u32
    omega

theorem print_history_arg_eq (db : history_db) (translate s_diag bare : Bool)
    (a : List Char) (hd : is_digits a) :
    print_history_arg db translate s_diag (some a) bare =
      some (print_history db translate s_diag (decimal_value a % 4294967296) bare) := by
  unfold print_history_arg decimal_value
  simp only [parse_tail_count_eq a 0 hd (by decide)]

/-! ## The flag scan always runs to its end -/

/-- The bound `argv.length - i` on the rounds of the flag scan is enough: any
larger bound gives the same result, so the scan started by `history` (bound
`argv.length`, `i = 1`) is the loop of the source run to completion. -/
theorem scan_flags_fuel : ∀ (fuel i : Nat) (argv : List (List Char)) (f : flags),
    argv.length - i ≤ fuel →
      scan_flags fuel i argv f = scan_flags (argv.length - i) i argv f := by
  intro fuel
  induction fuel with
  | zero =>
    intro i argv f h
    have h0 : argv.length - i = 0 := by omega
    rw [h0]
  | succ n ih =>
    intro i argv f h
    by_cases hi : i < argv.length
    · obtain ⟨k, hk⟩ : ∃ k, argv.length - i = k + 1 := ⟨argv.length - i - 1, by omega⟩
      have he : (argv.eraseIdx i).length - i = k := by
        rw [List.length_eraseIdx_of_lt hi]; omega
      have hs : argv.length - (i + 1) = k := by omega
      have e1 : ∀ g, scan_flags n i (argv.eraseIdx i) g = scan_flags k i (argv.eraseIdx i) g := by
        intro g
        rw [ih i (argv.eraseIdx i) g (by omega), he]
      have e2 : scan_flags n (i + 1) argv f = scan_flags k (i + 1) argv f := by
        rw [ih (i + 1) argv f (by omega), hs]
      rw [hk]
      simp only [scan_flags, hi, if_true, e1, e2]
    · have h0 : argv.length - i = 0 := by omega
      rw [h0]
      simp only [scan_flags, hi, if_false]

/-! ## The claims -/

/-- C1: for a store of `T < 2^32` lines and a tail count `N` (an unsigned value,
`UINT_MAX` standing for "all"), `print_history` emits exactly the last
`min N T` lines in store order, the k-th of them under ordinal
`T - min N T + k`; with the sentinel it emits all `T` lines under `1..T`. -/
theorem print_history_tail (db : history_db) (translate s_diag bare : Bool)
    (N : Nat) (hv : valid_store db.lines)
    (hT : db.lines.length < 4294967296) (hN : N ≤ UINT_MAX) :
    items (print_history db translate s_diag N bare) =
        ((db.lines.drop (db.lines.length - min N db.lines.length)).enumFrom
          (db.lines.length - min N db.lines.length + 1)).map (item_of bare translate) ∧
      (items (print_history db translate s_diag N bare)).length = min N db.lines.length ∧
      items (print_history db translate s_diag UINT_MAX bare) =
        (db.lines.enumFrom 1).map (item_of bare translate) := by
  refine ⟨print_history_items db translate s_diag bare N hv hT hN, ?_, ?_⟩
  · rw [print_history_items db translate s_diag bare N hv hT hN]
    simp only [List.length_map, List.enumFrom_length, List.length_drop]
    omega
  · have h := print_history_items db translate s_diag bare UINT_MAX hv hT (le_refl _)
    have hm : min UINT_MAX db.lines.length = db.lines.length := by
      unfold UINT_MAX; omega
    rw [hm, Nat.sub_self] at h
    simpa using h

theorem print_history_tail_witness :
    valid_store store3.lines ∧ store3.lines.length < 4294967296 ∧ 2 ≤ UINT_MAX ∧
      items (print_history store3 false false 2 false) =
        [event.puts_bytes (bytes "    2  echo 2"), event.puts_bytes (bytes "    3  echo 3")] ∧
      (items (print_history store3 false false 2 false)).length = 2 ∧
      items (print_history store3 false false UINT_MAX false) =
        [event.puts_bytes (bytes "    1  echo 1"), event.puts_bytes (bytes "    2  echo 2"),
          event.puts_bytes (bytes "    3  echo 3")] :=
  ⟨by decide, by decide, by decide,
    (print_history_tail store3 false false false 2 (by decide) (by decide) (by decide)).1.trans
      (by decide),
    (print_history_tail store3 false false false 2 (by decide) (by decide) (by decide)).2.1,
    (print_history_tail store3 false false false 2 (by decide) (by decide) (by decide)).2.2.trans
      (by decide)⟩

/-- C2: for a store of `T` lines and `1 ≤ index ≤ T`, `remove(index)` calls the
removal operation of the store exactly once, with the identifier of the
index-th line in iteration order, and returns 0, printing "Deleted item
<index>.", if and only if the store reports success. -/
theorem remove_in_range (db : history_db) (s_diag : Bool) (index : Int)
    (hv : valid_store db.lines) (h1 : 1 ≤ index) (h2 : index ≤ db.lines.length) :
    ∃ l, db.lines.get? (index - 1).toNat = some l ∧
      removals (remove db s_diag index).1 = [l.id] ∧
      ((remove db s_diag index).2 = 0 ↔ db.remove_result l.id = true) ∧
      (printed (remove db s_diag index).1 = ["Deleted item " ++ toString index ++ ".\n"] ↔
        db.remove_result l.id = true) ∧
      remove db s_diag index =
        ([event.scope_open s_diag, event.read_lines, event.db_remove l.id,
          event.stdout (if db.remove_result l.id = true
            then "Deleted item " ++ toString index ++ ".\n"
            else "Unable to delete history item " ++ toString index ++ ".\n")],
         if db.remove_result l.id = true then 0 else 1) := by
  obtain ⟨l, hl, hid⟩ := target_in_range db index hv h1 h2
  refine ⟨l, hl, ?_⟩
  rw [remove_positive db s_diag index h1, hid]
  refine ⟨rfl, ?_, ?_, rfl⟩
  · cases db.remove_result l.id <;> simp
  · cases db.remove_result l.id
    · simp only [printed, Bool.false_eq_true, if_false, iff_false]
      intro hc
      have := congrArg (fun x => (x.headD "").data.headD ' ') hc
      simp at this
    · simp [printed]

theorem remove_in_range_witness :
    valid_store store3.lines ∧
      (∃ l, store3.lines.get? 1 = some l ∧
        removals (remove store3 false 2).1 = [l.id] ∧
        ((remove store3 false 2).2 = 0 ↔ store3.remove_result l.id = true) ∧
        (printed (remove store3 false 2).1 = ["Deleted item 2.\n"] ↔
          store3.remove_result l.id = true) ∧
        remove store3 false 2 =
          ([event.scope_open false, event.read_lines, event.db_remove l.id,
            event.stdout (if store3.remove_result l.id = true
              then "Deleted item 2.\n" else "Unable to delete history item 2.\n")],
           if store3.remove_result l.id = true then 0 else 1)) ∧
      store3.lines.get? 1 = some ⟨12, 0, bytes "echo 2"⟩ ∧
      remove store3 false 2 =
        ([event.scope_open false, event.read_lines, event.db_remove 12,
          event.stdout "Deleted item 2.\n"], 0) ∧
      history store3 false getopt_start ["history".toList, "delete".toList, "2".toList] =
        ([event.scope_open false, event.read_lines, event.db_remove 12,
          event.stdout "Deleted item 2.\n"], 0) ∧
      items (history (after_remove store3 12) false getopt_start ["history".toList]).1 =
        [event.puts_bytes (bytes "    1  echo 1"), event.puts_bytes (bytes "    2  echo 3")] :=
  ⟨by decide, remove_in_range store3 false 2 (by decide) (by decide) (by decide),
    by decide, by decide, by decide, by decide⟩

/-- C3: for every `index ≤ 0` and every store, `remove(index)` returns 1 having
only opened the scope: the store is not iterated and its removal operation is
not called. -/
theorem remove_nonpositive (db : history_db) (s_diag : Bool) (index : Int)
    (h : index ≤ 0) :
    remove db s_diag index = ([event.scope_open s_diag], 1) ∧
      removals (remove db s_diag index).1 = [] ∧
      event.read_lines ∉ (remove db s_diag index).1 := by
  have hr : remove db s_diag index = ([event.scope_open s_diag], 1) := by
    unfold remove
    rw [if_pos h]
  rw [hr]
  exact ⟨rfl, rfl, by simp⟩

theorem remove_nonpositive_witness :
    (0 : Int) ≤ 0 ∧ remove store3 true 0 = ([event.scope_open true], 1) ∧
      removals (remove store3 true 0).1 = [] ∧
      event.read_lines ∉ (remove store3 true 0).1 :=
  ⟨le_refl _, remove_nonpositive store3 true 0 (le_refl _)⟩

/-- C4: help output and a store mutation in one invocation.  On `history -cx`
the Bash grammar clears the store, the cursor has not moved, the native grammar
runs and prints help; `history -sx foo` adds a line and prints help. -/
theorem history_bundled_option :
    history store3 false getopt_start ["history".toList, "-cx".toList] =
        ([event.scope_open false, event.db_clear, event.stdout "History cleared.\n",
          event.help], 1) ∧
      history store3 false getopt_start ["history".toList, "-sx".toList, "foo".toList] =
        ([event.scope_open false, event.db_add "-sx foo".toList,
          event.stdout "Added \x27-sx foo\x27 to history.\n", event.help], 1) ∧
      (event.help ∈ (history store3 false getopt_start
          ["history".toList, "-cx".toList]).1 ∧
        (history store3 false getopt_start
          ["history".toList, "-cx".toList]).1.any is_mutation = true) ∧
      (getopt ["history".toList, "-cx".toList] "?cd:ps".toList getopt_start).2.optind = 1 := by
  decide

/-- C5: in interactive-terminal mode the bytes of a multi-byte UTF-8 sequence
are caret-escaped instead of being handed to the conversion: `char` is signed,
so a byte of 0x80 or more fails the test `*walk >= 0x20`.  The line C3 A9
("é") is written as `^` U+0003 `^` U+FFE9 CR LF. -/
theorem print_history_item_high_bytes :
    print_history_item [0xC3, 0xA9] true =
        event.write_console
          [wchunk.units [94, 3], wchunk.units [94, 65513], wchunk.units [13, 10]] ∧
      (∀ b, 128 ≤ b → b < 256 → in_run b = false) := by
  refine ⟨by decide, ?_⟩
  intro b h1 h2
  have hm : b % 256 = b := Nat.mod_eq_of_lt h2
  unfold in_run char_value
  rw [hm, if_neg (by omega)]
  simp only [Bool.or_eq_false_iff, decide_eq_false_iff_not]
  constructor <;> omega

/-- C6: a control byte `b` (1 to 0x1F, not tab) of a line is rendered in
interactive-terminal mode as the two code units `^` and `b + 0x40`, the line
ending with CR LF; in redirected mode the bytes of the line are written
unchanged, followed by the newline of `puts`. -/
theorem control_byte_rendering (pre post : List Nat) (b : Nat)
    (hpre : nul_free pre) (hpost : nul_free post)
    (hb1 : 1 ≤ b) (hb2 : b ≤ 0x1F) (hb3 : b ≠ 0x09) :
    print_history_item (pre ++ b :: post) true =
        event.write_console (translate_walk pre [] ++
          wchunk.units [94, b + 0x40] :: (translate_walk post [] ++ [wchunk.units [13, 10]])) ∧
      print_history_item (pre ++ b :: post) false = event.puts_bytes (pre ++ b :: post) := by
  constructor
  · unfold print_history_item
    simp only [if_true]
    rw [translate_walk_control b post hb1 hb2 hb3 pre [] hpre]
    simp only [List.append_assoc, List.cons_append]
  · have hall : nul_free (pre ++ b :: post) := by
      intro x hx
      rcases List.mem_append.mp hx with h | h
      · exact hpre x h
      · rcases List.mem_cons.mp h with h | h
        · subst h
          have : x % 256 = x := Nat.mod_eq_of_lt (by omega)
          omega
        · exact hpost x h
    unfold print_history_item
    simp only [Bool.false_eq_true, if_false, c_str_nul_free _ hall]

theorem control_byte_rendering_witness :
    nul_free [0x61] ∧ nul_free [0x62, 0x1B] ∧
      print_history_item [0x61, 0x01, 0x62, 0x1B] true =
        event.write_console [wchunk.conv [0x61], wchunk.units [94, 0x41],
          wchunk.conv [0x62], wchunk.units [94, 0x5B], wchunk.units [13, 10]] ∧
      print_history_item [0x61, 0x01, 0x62, 0x1B] false =
        event.puts_bytes [0x61, 0x01, 0x62, 0x1B] :=
  ⟨by decide, by decide,
    (control_byte_rendering [0x61] [0x62, 0x1B] 0x01 (by decide) (by decide)
      (by decide) (by decide) (by decide)).1.trans (by decide),
    (control_byte_rendering [0x61] [0x62, 0x1B] 0x01 (by decide) (by decide)
      (by decide) (by decide) (by decide)).2⟩

/-- C7, as stated, fails: the argument `4294967296` denotes 2^32, the 32-bit
accumulator wraps to 0 and no line of a three-line store is listed. -/
theorem print_history_arg_wraps :
    is_digits "4294967296".toList ∧ decimal_value "4294967296".toList = 4294967296 ∧
      min (decimal_value "4294967296".toList) store3.lines.length = 3 ∧
      print_history_arg store3 false false (some "4294967296".toList) false =
        some (print_history store3 false false 0 false) ∧
      (print_history_arg store3 false false (some "4294967296".toList) false).map items =
        some [] := by
  decide

/-- C7, amended: for a string of decimal digits denoting `N`, the tail count
`print_history(const char*, bool)` computes is `N mod 2^32`; when `N < 2^32`
it is `N` and `history <N>` lists exactly the last `min N T` lines of a store
of `T < 2^32` lines. -/
theorem print_history_arg_digits (db : history_db) (translate s_diag bare : Bool)
    (a : List Char) (hd : is_digits a) (hN : decimal_value a < 4294967296)
    (hv : valid_store db.lines) (hT : db.lines.length < 4294967296) :
    print_history_arg db translate s_diag (some a) bare =
        some (print_history db translate s_diag (decimal_value a % 4294967296) bare) ∧
      print_history_arg db translate s_diag (some a) bare =
        some (print_history db translate s_diag (decimal_value a) bare) ∧
      items (print_history db translate s_diag (decimal_value a) bare) =
        ((db.lines.drop (db.lines.length - min (decimal_value a) db.lines.length)).enumFrom
          (db.lines.length - min (decimal_value a) db.lines.length + 1)).map
          (item_of bare translate) := by
  refine ⟨print_history_arg_eq db translate s_diag bare a hd, ?_, ?_⟩
  · rw [print_history_arg_eq db translate s_diag bare a hd, Nat.mod_eq_of_lt hN]
  · exact print_history_items db translate s_diag bare _ hv hT (by unfold UINT_MAX; omega)

theorem print_history_arg_digits_witness :
    is_digits "2".toList ∧ decimal_value "2".toList < 4294967296 ∧
      valid_store store3.lines ∧ store3.lines.length < 4294967296 ∧
      (print_history_arg store3 false false (some "2".toList) false).map items =
        some [event.puts_bytes (bytes "    2  echo 2"),
          event.puts_bytes (bytes "    3  echo 3")] :=
  ⟨by decide, by decide, by decide, by decide,
    (congrArg (Option.map items)
      (print_history_arg_digits store3 false false false "2".toList
        (by decide) (by decide) (by decide) (by decide)).2.1).trans (by decide)⟩

/-- C8: a negative index is rejected, not counted from the newest end.  On the
three-line store `delete -1` should address the third line (identifier 13);
`remove(-1)` returns 1 without calling the removal operation. -/
theorem remove_negative_rejected :
    remove store3 false (-1) = ([event.scope_open false], 1) ∧
      history store3 false getopt_start
        ["history".toList, "delete".toList, "-1".toList] = ([event.scope_open false], 1) ∧
      removals (remove store3 false (-1)).1 = [] ∧
      (store3.lines.get? (3 + (-1) + 1 - 1 : Int).toNat).map history_line.id = some 13 := by
  decide

/-- C9, as stated, fails: for index 3 on a two-line store the identifier 0 of
the exhausted iterator is handed to the removal operation, and the message and
the status are those of a store-side failure at the in-range index 3 of a
three-line store. -/
theorem remove_out_of_range_indistinct :
    (store2.lines.length : Int) < 3 ∧ (3 : Int) ≤ store3_locked.lines.length ∧
      removals (remove store2 false 3).1 = [0] ∧
      printed (remove store2 false 3).1 = printed (remove store3_locked false 3).1 ∧
      (remove store2 false 3).2 = (remove store3_locked false 3).2 := by
  decide

/-- C9, amended: for a store of `T` lines and `index > T`, `remove(index)` runs
the iterator to exhaustion and hands the identifier 0 it then returns to the
removal operation of the store, once; message and status follow the answer of
the store alone, so a refusal reads "Unable to delete history item <index>."
with status 1, as a store-side failure at an in-range index does. -/
theorem remove_out_of_range (db : history_db) (s_diag : Bool) (index : Int)
    (hv : valid_store db.lines) (h : (db.lines.length : Int) < index) :
    removals (remove db s_diag index).1 = [0] ∧
      remove db s_diag index =
        ([event.scope_open s_diag, event.read_lines, event.db_remove 0,
          event.stdout (if db.remove_result 0 = true
            then "Deleted item " ++ toString index ++ ".\n"
            else "Unable to delete history item " ++ toString index ++ ".\n")],
         if db.remove_result 0 = true then 0 else 1) ∧
      (db.remove_result 0 = false →
        printed (remove db s_diag index).1 =
          ["Unable to delete history item " ++ toString index ++ ".\n"] ∧
        (remove db s_diag index).2 = 1) := by
  have hr := remove_positive db s_diag index (by omega)
  rw [target_out_of_range db index hv h] at hr
  rw [hr]
  refine ⟨rfl, rfl, ?_⟩
  intro h0
  simp [h0, printed]

theorem remove_out_of_range_witness :
    valid_store store2.lines ∧ (store2.lines.length : Int) < 3 ∧
      removals (remove store2 false 3).1 = [0] ∧
      printed (remove store2 false 3).1 = ["Unable to delete history item 3.\n"] ∧
      (remove store2 false 3).2 = 1 :=
  ⟨by decide, by decide,
    (remove_out_of_range store2 false 3 (by decide) (by decide)).1,
    ((remove_out_of_range store2 false 3 (by decide) (by decide)).2.2 rfl).1.trans (by decide),
    ((remove_out_of_range store2 false 3 (by decide) (by decide)).2.2 rfl).2⟩

/-- C10, as stated, fails: for the index 0 `remove` returns 1 and prints no
line at all. -/
theorem remove_zero_silent :
    (0 : Int) ≤ 0 ∧ printed (remove store3 false 0).1 = [] ∧
      (remove store3 false 0).2 = 1 := by
  decide

/-- C10, amended: for every `index ≥ 1`, `remove` prints exactly one result
line before returning, "Deleted item <n>." with status 0 or "Unable to delete
history item <n>." with status 1; for `index > T` it is the failure line
whenever the store refuses the identifier 0; for `index ≤ 0` nothing is
printed and the status is 1. -/
theorem remove_result_line (db : history_db) (s_diag : Bool) (index : Int) :
    (1 ≤ index →
      (printed (remove db s_diag index).1 = ["Deleted item " ++ toString index ++ ".\n"] ∧
        (remove db s_diag index).2 = 0) ∨
      (printed (remove db s_diag index).1 =
          ["Unable to delete history item " ++ toString index ++ ".\n"] ∧
        (remove db s_diag index).2 = 1)) ∧
      (valid_store db.lines → (db.lines.length : Int) < index →
        db.remove_result 0 = false →
        printed (remove db s_diag index).1 =
          ["Unable to delete history item " ++ toString index ++ ".\n"] ∧
        (remove db s_diag index).2 = 1) ∧
      (index ≤ 0 → printed (remove db s_diag index).1 = [] ∧
        (remove db s_diag index).2 = 1) := by
  refine ⟨?_, ?_, ?_⟩
  · intro h1
    rw [remove_positive db s_diag index h1]
    cases db.remove_result (iter_next (seek (index - 1).toNat db.lines)).1
    · right; simp [printed]
    · left; simp [printed]
  · intro hv h h0
    have hr := remove_positive db s_diag index (by omega)
    rw [target_out_of_range db index hv h] at hr
    rw [hr]
    simp [h0, printed]
  · intro h
    unfold remove
    rw [if_pos h]
    exact ⟨rfl, rfl⟩

theorem remove_result_line_witness :
    printed (remove store3 false 2).1 = ["Deleted item 2.\n"] ∧
      printed (remove store3_locked false 2).1 = ["Unable to delete history item 2.\n"] ∧
      printed (remove store2 false 5).1 = ["Unable to delete history item 5.\n"] ∧
      printed (remove store3 false (-4)).1 = [] :=
  ⟨by decide, by decide,
    (((remove_result_line store2 false 5).2.1 (by decide) (by decide) rfl).1).trans (by decide),
    ((remove_result_line store3 false (-4)).2.2 (by decide)).1⟩

/-! ## Lemmas on `is_flag` -/

theorem is_flag_walk_nil (flag : List Char) (n : Nat) :
    is_flag_walk [] flag n = ([], flag, n) := by
  cases flag <;> rfl

theorem is_flag_walk_append : ∀ (arg t : List Char) (n : Nat),
    n + arg.length < 4294967296 →
      is_flag_walk arg (arg ++ t) n = ([], t, n + arg.length) := by
  intro arg
  induction arg with
  | nil => intro t n _; simpa using is_flag_walk_nil t n
  | cons a rest ih =>
    intro t n h
    simp only [List.length_cons] at h
    have hw : u32 (n + 1) = n + 1 := by
      unfold u32; exact Nat.mod_eq_of_lt (by omega)
    simp only [List.cons_append, is_flag_walk, if_true, hw, List.length_cons]
    rw [show rest.append t = rest ++ t from rfl, ih t (n + 1) (by omega)]
    congr 2
    omega

theorem is_flag_walk_other : ∀ (arg flag : List Char) (n : Nat),
    (¬ ∃ t, arg ++ t = flag) → (is_flag_walk arg flag n).1 ≠ [] := by
  intro arg
  induction arg with
  | nil => intro flag n h; exact absurd ⟨flag, rfl⟩ h
  | cons a rest ih =>
    intro flag n h
    cases flag with
    | nil => simp [is_flag_walk]
    | cons f fl =>
      by_cases haf : a = f
      · subst haf
        simp only [is_flag_walk, if_true]
        apply ih
        rintro ⟨t, ht⟩
        exact h ⟨t, by rw [List.cons_append, ht]⟩
      · simp [is_flag_walk, haf]

theorem is_flag_iff (arg flag : List Char) (m : Nat)
    (h : min arg.length flag.length < 4294967296) :
    is_flag arg flag m = true ↔ (∃ t, arg ++ t = flag) ∧ (arg = flag ∨ m ≤ arg.length) := by
  by_cases hp : ∃ t, arg ++ t = flag
  · obtain ⟨t, ht⟩ := hp
    subst ht
    have hlen : arg.length < 4294967296 := by
      simp only [List.length_append] at h
      omega
    unfold is_flag
    rw [is_flag_walk_append arg t 0 (by omega)]
    simp only [ne_eq, not_true_eq_false, if_false, Nat.zero_add]
    by_cases ht : t = []
    · subst ht
      simp
    · have hne : ¬ arg = arg ++ t := by
        intro he
        have := congrArg List.length he
        simp only [List.length_append] at this
        have : t.length = 0 := by omega
        exact ht (List.length_eq_zero.mp this)
      by_cases hm : arg.length < m
      · simp [ht, hm, hne]
      · simp [ht, hm, hne]
        omega
  · have hw := is_flag_walk_other arg flag 0 hp
    have hf : is_flag arg flag m = false := by
      unfold is_flag
      rcases hwalk : is_flag_walk arg flag 0 with ⟨a1, f1, ml⟩
      rw [hwalk] at hw
      simp only [hw, ne_eq, not_false_eq_true, if_true]
    rw [hf]
    simp [hp]

theorem is_flag_iff_accepted (arg flag : List Char) (m : Nat)
    (h : flag.length < 4294967296) :
    is_flag arg flag m = true ↔ arg ∈ accepted flag m := by
  rw [is_flag_iff arg flag m (by omega)]
  unfold accepted
  simp only [List.mem_filter, List.mem_inits, decide_eq_true_eq]
  rfl

theorem flag_table_exclusive :
    ∀ p ∈ flag_table, ∀ q ∈ flag_table, ∀ a ∈ accepted p.1 p.2, a ∈ accepted q.1 q.2 → p = q := by
  decide

theorem accepted_bare :
    accepted "--bare".toList 3 = ["--b".toList, "--ba".toList, "--bar".toList, "--bare".toList] := by
  decide

theorem accepted_h : accepted "-h".toList UINT_MAX = ["-h".toList] := by
  decide

theorem is_flag_exclusive (a : List Char) (p q : List Char × Nat)
    (hp : p ∈ flag_table) (hq : q ∈ flag_table)
    (h1 : is_flag a p.1 p.2 = true) (h2 : is_flag a q.1 q.2 = true) : p = q := by
  have hlen : ∀ r ∈ flag_table, r.1.length < 4294967296 := by decide
  exact flag_table_exclusive p hp q hq a
    ((is_flag_iff_accepted a p.1 p.2 (hlen p hp)).mp h1)
    ((is_flag_iff_accepted a q.1 q.2 (hlen q hq)).mp h2)

/-! ## Lemmas on the flag scan -/

theorem bare_excludes (a : List Char) (h : is_bare a = true) :
    is_diag a = false ∧ is_uniq a = false := by
  constructor
  · cases hd : is_diag a
    · rfl
    · have := is_flag_exclusive a ("--bare".toList, 3) ("--diag".toList, 3)
        (by decide) (by decide) h hd
      exact absurd this (by decide)
  · cases hu : is_uniq a
    · rfl
    · have := is_flag_exclusive a ("--bare".toList, 3) ("--unique".toList, 3)
        (by decide) (by decide) h hu
      exact absurd this (by decide)

theorem diag_excludes (a : List Char) (h : is_diag a = true) : is_uniq a = false := by
  cases hu : is_uniq a
  · rfl
  · have := is_flag_exclusive a ("--diag".toList, 3) ("--unique".toList, 3)
      (by decide) (by decide) h hu
    exact absurd this (by decide)

theorem scan_flags_step (fuel : Nat) (pre suf : List (List Char)) (a : List Char) (f : flags) :
    scan_flags (fuel + 1) pre.length (pre ++ a :: suf) f =
      if is_help a = true then none
      else if is_bare a = true then scan_flags fuel pre.length (pre ++ suf) { f with bare := true }
      else if is_diag a = true then scan_flags fuel pre.length (pre ++ suf) { f with diag := true }
      else if is_uniq a = true then scan_flags fuel pre.length (pre ++ suf) { f with uniq := true }
      else scan_flags fuel (pre ++ [a]).length ((pre ++ [a]) ++ suf) f := by
  have hi : pre.length < (pre ++ a :: suf).length := by
    simp only [List.length_append, List.length_cons]; omega
  have hg : (pre ++ a :: suf).getD pre.length [] = a := by
    rw [List.getD_append_right _ _ _ _ (le_refl _), Nat.sub_self]
    rfl
  have he : (pre ++ a :: suf).eraseIdx pre.length = pre ++ suf := by
    rw [List.eraseIdx_append_of_length_le (le_refl _), Nat.sub_self]
    rfl
  have hl : (pre ++ [a]).length = pre.length + 1 := by simp
  have ha : (pre ++ [a]) ++ suf = pre ++ a :: suf := by simp
  rw [scan_flags]
  simp only [hi, if_true, hg, he, hl, ha]
  rfl

/-- A request of help anywhere in the part still to scan ends the scan with
the early return. -/
theorem scan_flags_help : ∀ (suf pre : List (List Char)) (fuel : Nat) (f : flags),
    suf.length ≤ fuel → (∃ a ∈ suf, is_help a = true) →
      scan_flags fuel pre.length (pre ++ suf) f = none := by
  intro suf
  induction suf with
  | nil => intro pre fuel f _ h; obtain ⟨a, ha, _⟩ := h; cases ha
  | cons a rest ih =>
    intro pre fuel f hfuel h
    obtain ⟨n, rfl⟩ : ∃ n, fuel = n + 1 := ⟨fuel - 1, by simp only [List.length_cons] at hfuel; omega⟩
    simp only [List.length_cons] at hfuel
    rw [scan_flags_step]
    by_cases hh : is_help a = true
    · rw [if_pos hh]
    · have hrest : ∃ x ∈ rest, is_help x = true := by
        obtain ⟨x, hx, hxh⟩ := h
        rcases List.mem_cons.mp hx with rfl | hx
        · exact absurd hxh hh
        · exact ⟨x, hx, hxh⟩
      rw [if_neg hh]
      split
      · exact ih pre n _ (by omega) hrest
      · split
        · exact ih pre n _ (by omega) hrest
        · split
          · exact ih pre n _ (by omega) hrest
          · exact ih (pre ++ [a]) n _ (by omega) hrest

/-- Without a request of help the scan keeps the words that are no flag, in
order, and records each flag met. -/
theorem scan_flags_filter : ∀ (suf pre : List (List Char)) (fuel : Nat) (f : flags),
    suf.length ≤ fuel → (∀ a ∈ suf, is_help a = false) →
      scan_flags fuel pre.length (pre ++ suf) f =
        some (pre ++ suf.filter (fun a => !(is_bare a || is_diag a || is_uniq a)),
          ⟨f.bare || suf.any is_bare, f.diag || suf.any is_diag, f.uniq || suf.any is_uniq⟩) := by
  intro suf
  induction suf with
  | nil =>
    intro pre fuel f _ _
    cases fuel with
    | zero => simp [scan_flags]
    | succ n => simp [scan_flags]
  | cons a rest ih =>
    intro pre fuel f hfuel h
    obtain ⟨n, rfl⟩ : ∃ n, fuel = n + 1 := ⟨fuel - 1, by simp only [List.length_cons] at hfuel; omega⟩
    simp only [List.length_cons] at hfuel
    have hh : is_help a = false := h a (List.mem_cons_self _ _)
    have hrest : ∀ x ∈ rest, is_help x = false := fun x hx => h x (List.mem_cons_of_mem _ hx)
    rw [scan_flags_step, hh]
    simp only [Bool.false_eq_true, if_false]
    by_cases hb : is_bare a = true
    · obtain ⟨hd, hu⟩ := bare_excludes a hb
      rw [if_pos hb, ih pre n _ (by omega) hrest]
      simp [hb, hd, hu]
    · have hb2 : is_bare a = false := by simpa using hb
      rw [if_neg hb]
      by_cases hd : is_diag a = true
      · have hu := diag_excludes a hd
        rw [if_pos hd, ih pre n _ (by omega) hrest]
        simp [hb2, hd, hu]
      · have hd2 : is_diag a = false := by simpa using hd
        rw [if_neg hd]
        by_cases hu : is_uniq a = true
        · rw [if_pos hu, ih pre n _ (by omega) hrest]
          simp [hb2, hd2, hu]
        · have hu2 : is_uniq a = false := by simpa using hu
          rw [if_neg hu, ih (pre ++ [a]) n _ (by omega) hrest]
          simp [hb2, hd2, hu2]

/-! ## Lemmas on the outcome of `history` -/

theorem emit_pass_listing (bare translate s_diag : Bool) :
    ∀ (it : List history_line) (index : Nat) (num_from : Nat × Nat),
      ∀ e ∈ (emit_pass bare translate s_diag it index num_from).1, is_item e = true := by
  intro it
  induction it with
  | nil => intro index num_from e he; simp [emit_pass] at he
  | cons l rest ih =>
    intro index num_from e he
    simp only [emit_pass] at he
    split at he
    · cases he
    · rcases List.mem_cons.mp he with rfl | he
      · unfold print_history_item
        cases translate <;> rfl
      · exact ih _ _ e he

theorem print_history_listing (db : history_db) (translate s_diag bare : Bool) (n : Nat) :
    ∀ e ∈ print_history db translate s_diag n bare, is_listing_event e = true := by
  intro e he
  unfold print_history at he
  simp only [List.mem_append, List.mem_singleton] at he
  rcases he with (((rfl | he) | rfl) | he) | he
  · rfl
  · split at he
    · rw [List.mem_singleton.mp he]; rfl
    · cases he
  · rfl
  · have := emit_pass_listing _ _ _ _ _ _ e he
    cases e <;> simp_all [is_item, is_listing_event]
  · cases s_diag
    · simp at he
    · simp only [if_true, diag_report, List.mem_append, List.mem_singleton] at he
      rcases he with (he | he) | rfl
      · split at he
        · rw [List.mem_singleton.mp he]; rfl
        · cases he
      · split at he
        · rw [List.mem_singleton.mp he]; rfl
        · cases he
      · rfl

theorem stricmp_eq_dash (rest v : List Char) (hv : (v.map tolower).head? ≠ some '-') :
    stricmp_eq ('-' :: rest) v = false := by
  unfold stricmp_eq
  rw [decide_eq_false_iff_not]
  intro h
  apply hv
  rw [← h]
  rfl

theorem is_native_verb_dash (rest : List Char) : is_native_verb ('-' :: rest) = false := by
  unfold is_native_verb
  rw [stricmp_eq_dash rest _ (by decide), stricmp_eq_dash rest _ (by decide),
    stricmp_eq_dash rest _ (by decide), stricmp_eq_dash rest _ (by decide),
    stricmp_eq_dash rest _ (by decide)]
  rfl

theorem parse_tail_count_dash (rest : List Char) (n : Nat) :
    parse_tail_count ('-' :: rest) n = none := by
  rw [parse_tail_count, if_pos (by decide)]

theorem history_native_other (db : history_db) (translate : Bool) (f : flags)
    (argv : List (List Char))
    (h : argv.length ≤ 1 ∨ is_native_verb (argv.getD 1 []) = false) :
    history_native db translate f argv =
      if argv.length > 2 then print_help
      else
        match print_history_arg db translate f.diag
          (if argv.length > 1 then some (argv.getD 1 []) else none) f.bare with
        | none => print_help
        | some evs => (evs, 0) := by
  unfold history_native
  rcases h with h | h
  · have h1 : ¬ argv.length > 1 := by omega
    simp only [h1, false_and, if_false]
  · unfold is_native_verb at h
    simp only [Bool.or_eq_false_iff] at h
    obtain ⟨⟨⟨⟨h1, h2⟩, h3⟩, h4⟩, h5⟩ := h
    simp only [h1, h2, h3, h4, h5, Bool.false_eq_true, and_false, if_false]

theorem history_native_dash (db : history_db) (translate : Bool) (f : flags)
    (argv : List (List Char)) (rest : List Char) (h : argv.get? 1 = some ('-' :: rest)) :
    history_native db translate f argv = print_help := by
  have hg : argv.getD 1 [] = '-' :: rest := by
    rw [List.getD_eq_getElem?_getD, ← List.get?_eq_getElem?, h]
    rfl
  have hlen : argv.length > 1 := by
    by_contra hc
    rw [List.get?_eq_none.mpr (by omega)] at h
    cases h
  rw [history_native_other db translate f argv (Or.inr (by rw [hg]; exact is_native_verb_dash rest))]
  split
  · rfl
  · simp only [hlen, if_true, hg, print_history_arg, parse_tail_count_dash]

theorem print_history_arg_some (db : history_db) (translate d bare : Bool)
    (arg : Option (List Char)) (evs : List event)
    (h : print_history_arg db translate d arg bare = some evs) :
    ∃ n, evs = print_history db translate d n bare := by
  unfold print_history_arg at h
  cases arg with
  | none => exact ⟨UINT_MAX, (Option.some.inj h).symm⟩
  | some a =>
    simp only at h
    cases hp : parse_tail_count a 0 with
    | none => rw [hp] at h; cases h
    | some n => rw [hp] at h; exact ⟨n, (Option.some.inj h).symm⟩

theorem history_native_outcome (db : history_db) (translate : Bool) (f : flags)
    (argv : List (List Char)) :
    history_native db translate f argv = print_help ∨
      history_native db translate f argv =
        ([event.stdout "history: argument required for verb \x27delete\x27\n", event.help], 1) ∨
      operation db translate (history_native db translate f argv) := by
  unfold history_native
  simp only []
  split
  · exact Or.inr (Or.inr (operation.of_clear _))
  · split
    · exact Or.inr (Or.inr (operation.of_compact _ _))
    · split
      · split
        · exact Or.inr (Or.inl rfl)
        · exact Or.inr (Or.inr (operation.of_remove _ _))
      · split
        · split
          · exact Or.inl rfl
          · rename_i hne
            exact Or.inr (Or.inr (operation.of_add _ _ hne))
        · split
          · split
            · exact Or.inl rfl
            · rename_i hne
              exact Or.inr (Or.inr (operation.of_expand _ _ hne))
          · split
            · exact Or.inl rfl
            · generalize hr : print_history_arg db translate f.diag
                (if argv.length > 1 then some (argv.getD 1 []) else none) f.bare = r
              cases r with
              | none => exact Or.inl rfl
              | some evs =>
                obtain ⟨n, hn⟩ := print_history_arg_some _ _ _ _ _ _ hr
                subst hn
                exact Or.inr (Or.inr (operation.of_list _ _ _))

theorem getopt_advance_start (argv : List (List Char)) (st1 : getopt_state)
    (h : getopt_advance argv getopt_start = some st1) :
    ∃ rest, argv.get? 1 = some ('-' :: rest) := by
  unfold getopt_advance getopt_start at h
  simp only [ne_eq, not_true_eq_false, if_false] at h
  cases hget : argv.get? 1 with
  | none => rw [hget] at h; cases h
  | some arg =>
    rw [hget] at h
    simp only at h
    split at h
    · exact ⟨_, rfl⟩
    · cases h

theorem getopt_start_some (argv : List (List Char)) (opts : List Char)
    (h : (getopt argv opts getopt_start).1 ≠ none) :
    ∃ rest, argv.get? 1 = some ('-' :: rest) := by
  unfold getopt at h
  split at h
  · exact absurd rfl h
  · cases hadv : getopt_advance argv getopt_start with
    | none => rw [hadv] at h; exact absurd rfl h
    | some st1 => exact getopt_advance_start argv st1 hadv

theorem history_bash_outcome (db : history_db) (translate d : Bool)
    (argv : List (List Char)) :
    ((getopt argv "?cd:ps".toList getopt_start).1 = none ∧
        (history_bash db d argv getopt_start).1 = ([], -1)) ∨
      ((∃ rest, argv.get? 1 = some ('-' :: rest)) ∧
        ((history_bash db d argv getopt_start).1 = ([], -1) ∨
          (history_bash db d argv getopt_start).1 = print_help ∨
          operation db translate (history_bash db d argv getopt_start).1)) := by
  rcases hg : getopt argv "?cd:ps".toList getopt_start with ⟨_ | i, st1⟩
  · left
    refine ⟨rfl, ?_⟩
    unfold history_bash
    rw [hg]
  · right
    refine ⟨getopt_start_some argv _ (by rw [hg]; simp), ?_⟩
    unfold history_bash
    rw [hg]
    simp only []
    split
    · exact Or.inr (Or.inr (operation.of_clear _))
    · split
      · exact Or.inr (Or.inr (operation.of_remove _ _))
      · split
        · split
          · exact Or.inr (Or.inl rfl)
          · rename_i hne
            split
            · exact Or.inr (Or.inr (operation.of_add _ _ hne))
            · exact Or.inr (Or.inr (operation.of_expand _ _ hne))
        · split
          · exact Or.inr (Or.inl rfl)
          · exact Or.inl rfl

/-- Every run of `history` ends in one of six ways: help alone, help twice,
the missing-argument message with help, nothing at all with the result -1, one
operation, or one operation followed by help with the result 1. -/
theorem history_outcome (db : history_db) (translate : Bool) (argv : List (List Char)) :
    history db translate getopt_start argv = ([event.help], 1) ∨
      history db translate getopt_start argv = ([event.help, event.help], 1) ∨
      history db translate getopt_start argv =
        ([event.stdout "history: argument required for verb \x27delete\x27\n", event.help], 1) ∨
      history db translate getopt_start argv = ([], -1) ∨
      operation db translate (history db translate getopt_start argv) ∨
      ∃ o, operation db translate o ∧
        history db translate getopt_start argv = (o.1 ++ [event.help], 1) := by
  unfold history
  rcases hs : scan_flags argv.length 1 argv ⟨false, false, false⟩ with _ | ⟨argv1, f⟩
  · exact Or.inl rfl
  · simp only []
    rcases history_bash_outcome db translate f.diag argv1 with ⟨_, hb⟩ | ⟨⟨rest, hd⟩, hb⟩
    · split
      · rw [hb]; exact Or.inr (Or.inr (Or.inr (Or.inl rfl)))
      · rw [hb]
        simp only [List.nil_append]
        rcases history_native_outcome db translate f argv1 with h | h | h
        · rw [h]; exact Or.inl rfl
        · rw [h]; exact Or.inr (Or.inr (Or.inl rfl))
        · exact Or.inr (Or.inr (Or.inr (Or.inr (Or.inl h))))
    · split
      · rcases hb with h | h | h
        · rw [h]; exact Or.inr (Or.inr (Or.inr (Or.inl rfl)))
        · rw [h]; exact Or.inl rfl
        · exact Or.inr (Or.inr (Or.inr (Or.inr (Or.inl h))))
      · rw [history_native_dash db translate f argv1 rest hd]
        rcases hb with h | h | h
        · rw [h]; exact Or.inl rfl
        · rw [h]; exact Or.inr (Or.inl rfl)
        · exact Or.inr (Or.inr (Or.inr (Or.inr (Or.inr ⟨_, h, rfl⟩))))

theorem removals_listing : ∀ (evs : List event),
    (∀ e ∈ evs, is_listing_event e = true) → removals evs = [] := by
  intro evs
  induction evs with
  | nil => intro _; rfl
  | cons e rest ih =>
    intro h
    have he := h e (List.mem_cons_self _ _)
    have hrest := ih (fun x hx => h x (List.mem_cons_of_mem _ hx))
    cases e <;> simp_all [removals, is_listing_event]

theorem operation_no_help (db : history_db) (translate : Bool) (o : List event × Int)
    (h : operation db translate o) : event.help ∉ o.1 := by
  cases h with
  | of_list d bare n =>
    intro hm
    have := print_history_listing db translate d bare n _ hm
    cases this
  | of_add d line hne => simp [add]
  | of_remove d index =>
    unfold remove
    split <;> simp
  | of_clear d => simp [clear]
  | of_compact d u =>
    unfold compact
    split <;> simp
  | of_expand d line hne => simp [print_expansion]

theorem operation_add_nonempty (db : history_db) (translate : Bool) (o : List event × Int)
    (h : operation db translate o) (line : List Char) (hm : event.db_add line ∈ o.1) :
    line ≠ [] := by
  cases h with
  | of_list d bare n =>
    have := print_history_listing db translate d bare n _ hm
    cases this
  | of_add d l hne =>
    simp [add] at hm
    rw [hm]; exact hne
  | of_remove d index =>
    unfold remove at hm
    split at hm <;> simp at hm
  | of_clear d => simp [clear] at hm
  | of_compact d u =>
    unfold compact at hm
    split at hm <;> simp at hm
  | of_expand d l hne => simp [print_expansion] at hm

theorem operation_expand_nonempty (db : history_db) (translate : Bool) (o : List event × Int)
    (h : operation db translate o) (line : List Char) (hm : event.db_expand line ∈ o.1) :
    line ≠ [] := by
  cases h with
  | of_list d bare n =>
    have := print_history_listing db translate d bare n _ hm
    cases this
  | of_add d l hne => simp [add] at hm
  | of_remove d index =>
    unfold remove at hm
    split at hm <;> simp at hm
  | of_clear d => simp [clear] at hm
  | of_compact d u =>
    unfold compact at hm
    split at hm <;> simp at hm
  | of_expand d l hne =>
    simp [print_expansion] at hm
    rw [hm]; exact hne

theorem operation_remove_status (db : history_db) (translate : Bool) (o : List event × Int)
    (h : operation db translate o) (id : Nat) (hm : event.db_remove id ∈ o.1) :
    o.2 = if db.remove_result id = true then 0 else 1 := by
  cases h with
  | of_list d bare n =>
    have := print_history_listing db translate d bare n _ hm
    cases this
  | of_add d l hne => simp [add] at hm
  | of_remove d index =>
    by_cases hi : index ≤ 0
    · unfold remove at hm
      rw [if_pos hi] at hm
      simp at hm
    · rw [remove_positive db d index (by omega)] at hm ⊢
      simp only [List.mem_cons, event.db_remove.injEq, reduceCtorEq, false_or,
        List.mem_nil_iff, or_false] at hm
      rw [hm]
  | of_clear d => simp [clear] at hm
  | of_compact d u =>
    unfold compact at hm
    split at hm <;> simp at hm
  | of_expand d l hne => simp [print_expansion] at hm

theorem operation_done_status (db : history_db) (translate : Bool) (o : List event × Int)
    (h : operation db translate o) (hr : removals o.1 = [])
    (he : ∃ e ∈ o.1, ∀ d, e ≠ event.scope_open d) : o.2 = 0 := by
  cases h with
  | of_list d bare n => rfl
  | of_add d l hne => rfl
  | of_remove d index =>
    by_cases hi : index ≤ 0
    · obtain ⟨e, hm, hne⟩ := he
      unfold remove at hm
      rw [if_pos hi] at hm
      simp only [List.mem_singleton] at hm
      exact absurd hm (hne d)
    · rw [remove_positive db d index (by omega)] at hr
      simp [removals] at hr
  | of_clear d => rfl
  | of_compact d u =>
    unfold compact
    split <;> rfl
  | of_expand d l hne => rfl

theorem operation_scope_only (db : history_db) (translate : Bool) (o : List event × Int)
    (h : operation db translate o) (d : Bool) (hs : o.1 = [event.scope_open d]) : o.2 = 1 := by
  cases h with
  | of_list d1 bare n =>
    have h1 : event.read_lines ∈ print_history db translate d1 n bare := by
      unfold print_history
      simp
    simp only at hs
    rw [hs] at h1
    simp at h1
  | of_add d1 l hne => simp [add] at hs
  | of_remove d1 index =>
    by_cases hi : index ≤ 0
    · unfold remove
      rw [if_pos hi]
    · rw [remove_positive db d1 index (by omega)] at hs
      simp at hs
  | of_clear d1 => simp [clear] at hs
  | of_compact d1 u =>
    unfold compact at hs
    split at hs <;> simp at hs
  | of_expand d1 l hne => simp [print_expansion] at hs

theorem operation_status (db : history_db) (translate : Bool) (o : List event × Int)
    (h : operation db translate o) : o.2 = 0 ∨ o.2 = 1 := by
  cases h with
  | of_list d bare n => exact Or.inl rfl
  | of_add d l hne => exact Or.inl rfl
  | of_remove d index =>
    unfold remove
    split
    · exact Or.inr rfl
    · simp only
      split
      · exact Or.inl rfl
      · exact Or.inr rfl
  | of_clear d => exact Or.inl rfl
  | of_compact d u =>
    unfold compact
    split
    · exact Or.inl rfl
    · exact Or.inl rfl
  | of_expand d l hne => exact Or.inl rfl

theorem get_line_loop_ne_nil : ∀ (ws : List (List Char)) (out : List Char),
    out ≠ [] → get_line_loop ws out ≠ [] := by
  intro ws
  induction ws with
  | nil => intro out h; exact h
  | cons w rest ih =>
    intro out h
    simp only [get_line_loop]
    apply ih
    simp [h]

theorem get_line_dash (argv : List (List Char)) (rest : List Char)
    (h : argv.get? 1 = some ('-' :: rest)) : get_line 1 argv.length argv [] ≠ [] := by
  unfold get_line
  rw [List.take_length]
  cases argv with
  | nil => cases h
  | cons a0 tl =>
    cases tl with
    | nil => cases h
    | cons a1 tl2 =>
      have h1 : a1 = '-' :: rest := by simpa using h
      subst h1
      simp only [List.drop_succ_cons, List.drop_zero, get_line_loop]
      apply get_line_loop_ne_nil
      simp

theorem stricmp_eq_other (w a b : List Char) (h : stricmp_eq w a = true)
    (hab : a.map tolower ≠ b.map tolower) : stricmp_eq w b = false := by
  unfold stricmp_eq at h ⊢
  rw [decide_eq_true_eq] at h
  rw [decide_eq_false_iff_not, h]
  exact hab

theorem history_native_add_empty (db : history_db) (translate : Bool) (f : flags)
    (argv : List (List Char)) (hlen : argv.length > 1)
    (hv : stricmp_eq (argv.getD 1 []) "add".toList = true ∨
      stricmp_eq (argv.getD 1 []) "expand".toList = true)
    (hl : get_line 2 argv.length argv [] = []) :
    history_native db translate f argv = ([event.help], 1) := by
  unfold history_native
  rcases hv with hv | hv
  · simp only [stricmp_eq_other _ _ _ hv (show _ ≠ List.map tolower "clear".toList by decide),
      stricmp_eq_other _ _ _ hv (show _ ≠ List.map tolower "compact".toList by decide),
      stricmp_eq_other _ _ _ hv (show _ ≠ List.map tolower "delete".toList by decide),
      hv, hl, hlen, Bool.false_eq_true, and_false, if_false, and_self, if_true]
    rfl
  · simp only [stricmp_eq_other _ _ _ hv (show _ ≠ List.map tolower "clear".toList by decide),
      stricmp_eq_other _ _ _ hv (show _ ≠ List.map tolower "compact".toList by decide),
      stricmp_eq_other _ _ _ hv (show _ ≠ List.map tolower "delete".toList by decide),
      stricmp_eq_other _ _ _ hv (show _ ≠ List.map tolower "add".toList by decide),
      hv, hl, hlen, Bool.false_eq_true, and_false, if_false, and_self, if_true]
    rfl

theorem history_bash_line_empty (db : history_db) (d : Bool) (argv : List (List Char))
    (st st1 : getopt_state) (i : Char)
    (hg : getopt argv "?cd:ps".toList st = (some i, st1)) (hi : i = 's' ∨ i = 'p')
    (hl : get_line st1.optind argv.length argv [] = []) :
    history_bash db d argv st = (([event.help], 1), st1) := by
  unfold history_bash
  rw [hg]
  rcases hi with rfl | rfl
  · simp only [hl]
    rfl
  · simp only [hl]
    rfl

/-! ## Lemmas on the native listing, the layout and the tally -/

theorem parse_tail_count_reject : ∀ (w : List Char) (n : Nat),
    is_bytes w → ¬ is_digits w → parse_tail_count w n = none := by
  intro w
  induction w with
  | nil => intro n _ h; exact absurd (fun c hc => by cases hc) h
  | cons c rest ih =>
    intro n hb hd
    have hc256 : c.toNat < 256 := hb c (List.mem_cons_self _ _)
    have hbrest : is_bytes rest := fun x hx => hb x (List.mem_cons_of_mem _ hx)
    have hm : c.toNat % 256 = c.toNat := Nat.mod_eq_of_lt hc256
    by_cases hc : 48 ≤ c.toNat ∧ c.toNat ≤ 57
    · have hrest : ¬ is_digits rest := by
        intro hr
        apply hd
        intro x hx
        rcases List.mem_cons.mp hx with rfl | hx
        · exact hc
        · exact hr x hx
      have hcv : char_value c.toNat = (c.toNat : Int) := char_value_small _ (by omega)
      have hno : ¬ (char_value c.toNat < 48 ∨ char_value c.toNat > 57) := by
        rw [hcv]; omega
      rw [parse_tail_count, if_neg hno]
      exact ih _ hbrest hrest
    · have hyes : char_value c.toNat < 48 ∨ char_value c.toNat > 57 := by
        unfold char_value
        rw [hm]
        split <;> omega
      rw [parse_tail_count, if_pos hyes]

theorem history_to_native (db : history_db) (translate : Bool)
    (argv argv1 : List (List Char)) (f : flags) (st1 : getopt_state)
    (hs : scan_flags argv.length 1 argv ⟨false, false, false⟩ = some (argv1, f))
    (hg : getopt argv1 "?cd:ps".toList getopt_start = (none, st1)) (h1 : st1.optind = 1) :
    history db translate getopt_start argv = history_native db translate f argv1 := by
  have hb : history_bash db f.diag argv1 getopt_start = (([], -1), st1) := by
    unfold history_bash
    rw [hg]
  unfold history
  rw [hs]
  simp only [hb, h1, ne_eq, not_true_eq_false, if_false, List.nil_append]

theorem fmt_u_length (i : Nat) (h : i ≤ 99999) : (fmt_u i).length ≤ 5 := by
  unfold fmt_u Nat.toDigits
  rw [List.length_map]
  exact Nat.toDigitsCore_length 10 (by decide) (i + 1) i 5 (by omega) (by decide)

theorem emit_pass_tally (bare translate : Bool) :
    ∀ (it : List history_line) (index : Nat) (num_from : Nat × Nat),
      valid_store it → num_from.1 + num_from.2 + it.length < 4294967296 →
      (emit_pass bare translate true it index num_from).2.1 +
        (emit_pass bare translate true it index num_from).2.2 =
        num_from.1 + num_from.2 + it.length := by
  intro it
  induction it with
  | nil => intro index num_from _ _; simp [emit_pass]
  | cons l rest ih =>
    intro index num_from hv h
    obtain ⟨hid, hrest⟩ := valid_store_cons hv
    have hbank : l.bank < 2 := (hv l (List.mem_cons_self _ _)).2
    simp only [List.length_cons] at h
    simp only [emit_pass, hid, if_false, if_true, List.length_cons]
    have hb : (bump num_from l.bank).1 + (bump num_from l.bank).2 =
        num_from.1 + num_from.2 + 1 := by
      unfold bump u32
      by_cases h0 : l.bank = 0
      · rw [if_pos h0]
        simp only
        rw [Nat.mod_eq_of_lt (by omega)]
        omega
      · have h1 : l.bank = 1 := by omega
        rw [if_neg h0, if_pos h1]
        simp only
        rw [Nat.mod_eq_of_lt (by omega)]
        omega
    rw [ih _ _ hrest (by omega), hb]
    omega

theorem print_history_skip (db : history_db) (tail_count : Nat)
    (hv : valid_store db.lines) (hT : db.lines.length < 4294967296)
    (hN : tail_count ≤ UINT_MAX) :
    (if (if decide (tail_count ≠ UINT_MAX) = true then count_pass db.lines 0 else 0)
        > tail_count
      then u32 ((if decide (tail_count ≠ UINT_MAX) = true then count_pass db.lines 0 else 0)
        - tail_count) else 0) = db.lines.length - min tail_count db.lines.length := by
  have hc := count_pass_eq db.lines hv 0 (by omega)
  unfold UINT_MAX at hN ⊢
  by_cases hb : tail_count = 4294967295
  · subst hb
    simp
    omega
  · simp only [ne_eq, hb, not_false_eq_true, decide_True, if_true, hc, Nat.zero_add]
    by_cases hgt : db.lines.length > tail_count
    · have hw : u32 (db.lines.length - tail_count) = db.lines.length - tail_count := by
        unfold u32; exact Nat.mod_eq_of_lt (by omega)
      rw [if_pos hgt, hw]
      omega
    · rw [if_neg hgt]
      omega

theorem items_of_texts (bare translate : Bool) : ∀ (l : List history_line) (s : Nat),
    (l.enumFrom s).map (item_of bare translate) =
      ((l.map history_line.text).enumFrom s).map
        (fun p => print_history_item (format_line bare p.1 p.2) translate) := by
  intro l
  induction l with
  | nil => intro s; rfl
  | cons x rest ih =>
    intro s
    simp only [List.enumFrom_cons, List.map_cons, ih (s + 1)]
    rfl

theorem print_history_tally (db : history_db) (translate bare : Bool) (tail_count : Nat)
    (hv : valid_store db.lines) (hT : db.lines.length < 4294967296)
    (hN : tail_count ≤ UINT_MAX) :
    ∃ pre num_from,
      print_history db translate true tail_count bare = pre ++ diag_report db num_from ∧
      (∀ e ∈ pre, is_listing_event e = true ∧ ∀ t, e ≠ event.stderr t) ∧
      num_from.1 + num_from.2 = min tail_count db.lines.length := by
  have hskip := print_history_skip db tail_count hv hT hN
  have hk : db.lines.length - min tail_count db.lines.length ≤ db.lines.length :=
    Nat.sub_le _ _
  have hmin : (db.lines.drop (db.lines.length - min tail_count db.lines.length)).length =
      min tail_count db.lines.length := by
    rw [List.length_drop]
    omega
  generalize db.lines.length - min tail_count db.lines.length = k at hskip hk hmin
  refine ⟨[event.scope_open true] ++
      (if decide (tail_count ≠ UINT_MAX) = true then [event.read_lines] else []) ++
      [event.read_lines] ++
      (emit_pass bare translate true (skip_pass k 1 db.lines).2 (skip_pass k 1 db.lines).1
        (0, 0)).1,
    (emit_pass bare translate true (skip_pass k 1 db.lines).2 (skip_pass k 1 db.lines).1
      (0, 0)).2, ?_, ?_, ?_⟩
  · unfold print_history
    simp only [hskip, if_true]
  · intro e he
    simp only [List.mem_append, List.mem_singleton] at he
    rcases he with ((rfl | he) | rfl) | he
    · exact ⟨rfl, fun t => by simp⟩
    · split at he
      · rw [List.mem_singleton.mp he]; exact ⟨rfl, fun t => by simp⟩
      · cases he
    · exact ⟨rfl, fun t => by simp⟩
    · have := emit_pass_listing _ _ _ _ _ _ e he
      cases e <;> simp_all [is_item, is_listing_event]
  · rw [skip_pass_snd]
    rw [emit_pass_tally bare translate _ _ _ (valid_store_drop hv _) (by simp only []; omega)]
    simp only [hmin]
    omega

/-! ## The claims on the argument interpreter -/

/-- C11: `history` returns 1 whenever the help text is printed; without help it
returns 0 when a list, add, clear, compact or expand operation was done, and
after a call of the removal operation it returns 0 if the store reported
success and 1 if not; a `remove` turned away at the guard (scope opened,
nothing else) returns 1. -/
theorem history_status (db : history_db) (translate : Bool) (argv : List (List Char)) :
    (event.help ∈ (history db translate getopt_start argv).1 →
        (history db translate getopt_start argv).2 = 1) ∧
      (event.help ∉ (history db translate getopt_start argv).1 →
        ∀ id, event.db_remove id ∈ (history db translate getopt_start argv).1 →
          (history db translate getopt_start argv).2 =
            if db.remove_result id = true then 0 else 1) ∧
      (event.help ∉ (history db translate getopt_start argv).1 →
        removals (history db translate getopt_start argv).1 = [] →
        (∃ e ∈ (history db translate getopt_start argv).1, ∀ d, e ≠ event.scope_open d) →
          (history db translate getopt_start argv).2 = 0) ∧
      (∀ d, (history db translate getopt_start argv).1 = [event.scope_open d] →
        (history db translate getopt_start argv).2 = 1) := by
  have ho := history_outcome db translate argv
  generalize history db translate getopt_start argv = r at ho
  rcases ho with h | h | h | h | h | ⟨o, _, h⟩
  · subst h; simp
  · subst h; simp
  · subst h; simp
  · subst h; simp
  · refine ⟨fun hm => absurd hm (operation_no_help db translate r h), ?_, ?_, ?_⟩
    · intro _ id hm
      exact operation_remove_status db translate r h id hm
    · intro _ hr he
      exact operation_done_status db translate r h hr he
    · intro d hs
      exact operation_scope_only db translate r h d hs
  · subst h
    refine ⟨fun _ => rfl, ?_, ?_, ?_⟩
    · intro hn; exact absurd (by simp) hn
    · intro hn; exact absurd (by simp) hn
    · intro d hs
      have := congrArg List.getLast? hs
      simp at this

theorem history_status_witness :
    history store3 false getopt_start ["history".toList, "add".toList, "dir".toList] =
        ([event.scope_open false, event.db_add "dir".toList,
          event.stdout "Added \x27dir\x27 to history.\n"], 0) ∧
      (history store3_locked false getopt_start
        ["history".toList, "-d".toList, "2".toList]).2 = 1 ∧
      (history store3 false getopt_start ["history".toList, "add".toList]) =
        ([event.help], 1) :=
  ⟨by decide,
    ((history_status store3_locked false ["history".toList, "-d".toList, "2".toList]).2.1
      (by decide) 12 (by decide)).trans (by decide),
    by decide⟩

/-- C12: `is_flag(arg, flag, m)` holds exactly when `arg` is a prefix of `flag`,
compared character by character, and is the whole flag or has at least `m`
characters.  With `m = 3` the strings accepted for `--bare` are `--b`, `--ba`,
`--bar`, `--bare`; with the default `m` only `-h` is accepted for `-h`; no
string is accepted for two of the flags of `history`. -/
theorem is_flag_accepts (arg flag : List Char) (m : Nat)
    (h : min arg.length flag.length < 4294967296) :
    (is_flag arg flag m = true ↔
        (∃ t, arg ++ t = flag) ∧ (arg = flag ∨ m ≤ arg.length)) ∧
      (is_flag arg "--bare".toList 3 = true ↔
        arg ∈ ["--b".toList, "--ba".toList, "--bar".toList, "--bare".toList]) ∧
      (is_flag arg "-h".toList UINT_MAX = true ↔ arg = "-h".toList) ∧
      (∀ p ∈ flag_table, ∀ q ∈ flag_table,
        is_flag arg p.1 p.2 = true → is_flag arg q.1 q.2 = true → p = q) := by
  refine ⟨is_flag_iff arg flag m h, ?_, ?_, ?_⟩
  · rw [is_flag_iff_accepted arg _ 3 (by decide), accepted_bare]
  · rw [is_flag_iff_accepted arg _ UINT_MAX (by decide), accepted_h]
    simp
  · intro p hp q hq h1 h2
    exact is_flag_exclusive arg p q hp hq h1 h2

theorem is_flag_accepts_witness :
    min "--ba".toList.length "--bare".toList.length < 4294967296 ∧
      is_flag "--ba".toList "--bare".toList 3 = true ∧
      is_flag "--".toList "--bare".toList 3 = false ∧
      is_flag "--Ba".toList "--bare".toList 3 = false ∧
      is_flag "-".toList "-h".toList UINT_MAX = false :=
  ⟨by decide,
    ((is_flag_accepts "--ba".toList "--bare".toList 3 (by decide)).1).mpr
      ⟨⟨"re".toList, by decide⟩, Or.inr (by decide)⟩,
    by decide, by decide, by decide⟩

/-- C13: when no argument asks for help, the flag scan leaves `argv[0]` in
place followed by the arguments that match none of `--bare`, `--diag`,
`--unique`, in their order, and each of `bare`, `diag`, `uniq` is true exactly
when some argument matched that flag. -/
theorem scan_flags_strips (a0 : List Char) (rest : List (List Char))
    (h : ∀ a ∈ rest, is_help a = false) :
    scan_flags (a0 :: rest).length 1 (a0 :: rest) ⟨false, false, false⟩ =
        some (a0 :: rest.filter (fun a => !(is_bare a || is_diag a || is_uniq a)),
          ⟨rest.any is_bare, rest.any is_diag, rest.any is_uniq⟩) ∧
      (a0 :: rest.filter (fun a => !(is_bare a || is_diag a || is_uniq a))).length =
        (a0 :: rest).length - rest.countP (fun a => is_bare a || is_diag a || is_uniq a) := by
  constructor
  · have := scan_flags_filter rest [a0] (a0 :: rest).length ⟨false, false, false⟩
      (by simp) h
    simpa using this
  · have hc := List.length_eq_countP_add_countP
      (fun a => is_bare a || is_diag a || is_uniq a) rest
    simp only [List.length_cons, List.countP_eq_length_filter] at hc ⊢
    have hf : (List.filter (fun a => !(is_bare a || is_diag a || is_uniq a)) rest).length =
        (List.filter (fun a => decide ¬(is_bare a || is_diag a || is_uniq a) = true) rest).length := by
      congr 1
      apply List.filter_congr
      intro x _
      cases (is_bare x || is_diag x || is_uniq x) <;> rfl
    omega

theorem scan_flags_strips_witness :
    (∀ a ∈ ["--diag".toList, "add".toList, "--bare".toList, "x".toList], is_help a = false) ∧
      scan_flags 5 1
        ["history".toList, "--diag".toList, "add".toList, "--bare".toList, "x".toList]
        ⟨false, false, false⟩ =
        some (["history".toList, "add".toList, "x".toList], ⟨true, true, false⟩) :=
  ⟨by decide,
    (scan_flags_strips "history".toList
      ["--diag".toList, "add".toList, "--bare".toList, "x".toList] (by decide)).1.trans
      (by decide)⟩

/-- C14: when some argument after `argv[0]` is `-h` or a prefix of `--help` of
three characters or more, `history` prints the help text and returns 1 and does
nothing else: no grammar runs, no scope is opened. -/
theorem history_help_flag (db : history_db) (translate : Bool) (st : getopt_state)
    (argv : List (List Char))
    (h : ∃ a ∈ argv.tail, a = "-h".toList ∨
      ((∃ t, a ++ t = "--help".toList) ∧ 3 ≤ a.length)) :
    history db translate st argv = ([event.help], 1) := by
  obtain ⟨a, ha, hflag⟩ := h
  cases argv with
  | nil => cases ha
  | cons a0 rest =>
    simp only [List.tail_cons] at ha
    have hh : is_help a = true := by
      unfold is_help
      rcases hflag with rfl | ⟨hp, hl⟩
      · decide
      · have : is_flag a "--help".toList 3 = true :=
          (is_flag_iff a _ 3 (by
            have : "--help".toList.length = 6 := by decide
            omega)).mpr ⟨hp, Or.inr hl⟩
        rw [this]
        rfl
    have hs := scan_flags_help rest [a0] (a0 :: rest).length ⟨false, false, false⟩
      (by simp) ⟨a, ha, hh⟩
    unfold history
    have hs2 : scan_flags (a0 :: rest).length 1 (a0 :: rest) ⟨false, false, false⟩ = none := by
      simpa using hs
    rw [hs2]
    rfl

theorem history_help_flag_witness :
    (∃ a ∈ ["history".toList, "clear".toList, "--hel".toList].tail, a = "-h".toList ∨
        ((∃ t, a ++ t = "--help".toList) ∧ 3 ≤ a.length)) ∧
      history store3 false getopt_start ["history".toList, "clear".toList, "--hel".toList] =
        ([event.help], 1) :=
  ⟨⟨"--hel".toList, by decide, Or.inr ⟨⟨"p".toList, by decide⟩, by decide⟩⟩,
    history_help_flag store3 false getopt_start
      ["history".toList, "clear".toList, "--hel".toList]
      ⟨"--hel".toList, by decide, Or.inr ⟨⟨"p".toList, by decide⟩, by decide⟩⟩⟩

/-- C17: `add` and `print_expansion` are only ever called with a non-empty
line.  When the joined words are empty, the native verbs `add` and `expand`
and the Bash options `-s` and `-p` print help and return 1 without opening the
store, and so does `history` as a whole. -/
theorem history_line_nonempty (db : history_db) (translate : Bool)
    (argv : List (List Char)) :
    (∀ line, event.db_add line ∈ (history db translate getopt_start argv).1 → line ≠ []) ∧
      (∀ line, event.db_expand line ∈ (history db translate getopt_start argv).1 →
        line ≠ []) ∧
      (∀ f, argv.length > 1 →
        (stricmp_eq (argv.getD 1 []) "add".toList = true ∨
          stricmp_eq (argv.getD 1 []) "expand".toList = true) →
        get_line 2 argv.length argv [] = [] →
        history_native db translate f argv = ([event.help], 1)) ∧
      (∀ d st st1 i, getopt argv "?cd:ps".toList st = (some i, st1) → (i = 's' ∨ i = 'p') →
        get_line st1.optind argv.length argv [] = [] →
        history_bash db d argv st = (([event.help], 1), st1)) ∧
      (∀ argv1 f st1 i, scan_flags argv.length 1 argv ⟨false, false, false⟩ = some (argv1, f) →
        getopt argv1 "?cd:ps".toList getopt_start = (some i, st1) → (i = 's' ∨ i = 'p') →
        get_line st1.optind argv1.length argv1 [] = [] →
        history db translate getopt_start argv = ([event.help], 1)) := by
  refine ⟨?_, ?_, ?_, ?_, ?_⟩
  · intro line hm
    rcases history_outcome db translate argv with h | h | h | h | h | ⟨o, ho, h⟩
    · rw [h] at hm; simp at hm
    · rw [h] at hm; simp at hm
    · rw [h] at hm; simp at hm
    · rw [h] at hm; simp at hm
    · exact operation_add_nonempty db translate _ h line hm
    · rw [h] at hm
      simp only [List.mem_append, List.mem_singleton, reduceCtorEq, or_false] at hm
      exact operation_add_nonempty db translate o ho line hm
  · intro line hm
    rcases history_outcome db translate argv with h | h | h | h | h | ⟨o, ho, h⟩
    · rw [h] at hm; simp at hm
    · rw [h] at hm; simp at hm
    · rw [h] at hm; simp at hm
    · rw [h] at hm; simp at hm
    · exact operation_expand_nonempty db translate _ h line hm
    · rw [h] at hm
      simp only [List.mem_append, List.mem_singleton, reduceCtorEq, or_false] at hm
      exact operation_expand_nonempty db translate o ho line hm
  · intro f hlen hv hl
    exact history_native_add_empty db translate f argv hlen hv hl
  · intro d st st1 i hg hi hl
    exact history_bash_line_empty db d argv st st1 i hg hi hl
  · intro argv1 f st1 i hs hg hi hl
    have hb := history_bash_line_empty db f.diag argv1 getopt_start st1 i hg hi hl
    have hne : st1.optind ≠ 1 := by
      intro h1
      obtain ⟨rest, hd⟩ := getopt_start_some argv1 "?cd:ps".toList (by rw [hg]; simp)
      rw [h1] at hl
      exact get_line_dash argv1 rest hd hl
    unfold history
    rw [hs]
    simp only [hb, ne_eq, hne, not_false_eq_true, if_true]

theorem history_line_nonempty_witness :
    history store3 false getopt_start ["history".toList, "-s".toList, "".toList] =
        ([event.help], 1) ∧
      history store3 false getopt_start ["history".toList, "ADD".toList, "--bare".toList] =
        ([event.help], 1) ∧
      history store3 false getopt_start ["history".toList, "-p".toList] = ([event.help], 1) :=
  ⟨(history_line_nonempty store3 false ["history".toList, "-s".toList, "".toList]).2.2.2.2
      ["history".toList, "-s".toList, "".toList] ⟨false, false, false⟩ ⟨2, [], []⟩ 's'
      (by decide) (by decide) (Or.inl rfl) (by decide),
    by decide, by decide⟩

/-- C20: the value -1 of `history_bash` reaches the caller.  On `history --`
the scan ends without an option but with the cursor at 2, the test
`optind != 1` holds and `history` returns -1, having done no operation and
printed no help.  In every run the result is 0 or 1 unless it is this empty
run. -/
theorem history_double_dash :
    getopt ["history".toList, "--".toList] "?cd:ps".toList getopt_start =
        (none, ⟨2, [], []⟩) ∧
      history store3 false getopt_start ["history".toList, "--".toList] = ([], -1) ∧
      history store3 false getopt_start ["history".toList, "--".toList, "2".toList] =
        ([], -1) ∧
      (∀ (db : history_db) (translate : Bool) (argv : List (List Char)),
        (history db translate getopt_start argv).2 = 0 ∨
        (history db translate getopt_start argv).2 = 1 ∨
        history db translate getopt_start argv = ([], -1)) := by
  refine ⟨by decide, by decide, by decide, ?_⟩
  intro db translate argv
  rcases history_outcome db translate argv with h | h | h | h | h | ⟨o, _, h⟩
  · rw [h]; exact Or.inr (Or.inl rfl)
  · rw [h]; exact Or.inr (Or.inl rfl)
  · rw [h]; exact Or.inr (Or.inl rfl)
  · exact Or.inr (Or.inr h)
  · rcases operation_status db translate _ h with h0 | h1
    · exact Or.inl h0
    · exact Or.inr (Or.inl h1)
  · rw [h]; exact Or.inr (Or.inl rfl)

/-! ## Lemmas on `dispatch_verb` -/

theorem dispatch_loop_unknown (handler : Nat → Nat → List (List Char) → Int × Nat)
    (verb : List Char) (argv : List (List Char)) (optind : Nat) :
    ∀ (names : List (List Char)) (k : Nat), verb ∉ names →
      dispatch_loop handler verb argv optind names k = ⟨[], 0, optind, true⟩ := by
  intro names
  induction names with
  | nil => intro k _; rfl
  | cons name rest ih =>
    intro k h
    have hne : verb ≠ name := fun he => h (by rw [he]; exact List.mem_cons_self _ _)
    have hrest : verb ∉ rest := fun hm => h (List.mem_cons_of_mem _ hm)
    rw [dispatch_loop, if_neg hne]
    exact ih (k + 1) hrest

theorem dispatch_loop_found (handler : Nat → Nat → List (List Char) → Int × Nat)
    (verb : List Char) (argv : List (List Char)) (optind : Nat) :
    ∀ (names : List (List Char)) (k j : Nat), names.Nodup → names.get? j = some verb →
      dispatch_loop handler verb argv optind names k =
        ⟨[(k + j, 1, argv)], (handler (k + j) 1 argv).1, optind, false⟩ := by
  intro names
  induction names with
  | nil => intro k j _ h; cases h
  | cons name rest ih =>
    intro k j hnd h
    cases j with
    | zero =>
      have : name = verb := by simpa using h
      subst this
      rw [dispatch_loop, if_pos rfl]
      rfl
    | succ j =>
      have hget : rest.get? j = some verb := by simpa using h
      have hmem : verb ∈ rest := List.get?_mem hget
      have hne : verb ≠ name := by
        intro he
        subst he
        exact (List.nodup_cons.mp hnd).1 hmem
      rw [dispatch_loop, if_neg hne, ih (k + 1) j (List.nodup_cons.mp hnd).2 hget]
      have : k + 1 + j = k + (j + 1) := by omega
      rw [this]

/-! ## The claims on the listing layout, the native grammar and the dispatcher -/

/-- C15, as stated, fails: `history ""` has one remaining word, which is not a
non-empty string of digits and not a verb, the Bash scan consumed nothing, and
the tail listing runs with count 0: the store is opened and 0 is returned. -/
theorem history_empty_word :
    ¬ ("".toList ≠ [] ∧ is_digits "".toList) ∧ is_native_verb "".toList = false ∧
      (getopt ["history".toList, "".toList] "?cd:ps".toList getopt_start).2.optind = 1 ∧
      history store3 false getopt_start ["history".toList, "".toList] =
        ([event.scope_open false, event.read_lines, event.read_lines], 0) ∧
      history_native store3 false ⟨false, false, false⟩ ["history".toList, "".toList] =
        (print_history store3 false false 0 false, 0) := by
  decide

/-- C15, amended: under the native grammar, when the first remaining word is
none of clear, compact, delete, add, expand: with no remaining word the whole
history is listed; with exactly one remaining word the tail listing runs if and
only if the word consists of decimal digits only (the empty word included,
which gives the count 0); with a word that has another character, or with more
than one remaining word, help is printed, 1 is returned and the store is not
opened.  `history` is the native grammar whenever the Bash scan returns no
option and leaves the cursor at 1. -/
theorem history_native_listing (db : history_db) (translate : Bool) (f : flags)
    (argv : List (List Char)) (hb : is_bytes (argv.getD 1 []))
    (hverb : is_native_verb (argv.getD 1 []) = false) :
    (argv.length ≤ 1 →
        history_native db translate f argv =
          (print_history db translate f.diag UINT_MAX f.bare, 0)) ∧
      (argv.length = 2 → is_digits (argv.getD 1 []) →
        history_native db translate f argv =
          (print_history db translate f.diag
            (decimal_value (argv.getD 1 []) % 4294967296) f.bare, 0)) ∧
      (argv.length = 2 → ¬ is_digits (argv.getD 1 []) →
        history_native db translate f argv = ([event.help], 1)) ∧
      (argv.length > 2 → history_native db translate f argv = ([event.help], 1)) ∧
      (∀ argv0 st1, scan_flags argv0.length 1 argv0 ⟨false, false, false⟩ = some (argv, f) →
        getopt argv "?cd:ps".toList getopt_start = (none, st1) → st1.optind = 1 →
        history db translate getopt_start argv0 = history_native db translate f argv) := by
  have hn := history_native_other db translate f argv (Or.inr hverb)
  refine ⟨?_, ?_, ?_, ?_, ?_⟩
  · intro h
    rw [hn, if_neg (by omega), if_neg (by omega)]
    rfl
  · intro h hd
    rw [hn, if_neg (by omega), if_pos (by omega),
      print_history_arg_eq db translate f.diag f.bare _ hd]
  · intro h hd
    rw [hn, if_neg (by omega), if_pos (by omega)]
    unfold print_history_arg
    simp only [parse_tail_count_reject _ 0 hb hd]
    rfl
  · intro h
    rw [hn, if_pos h]
    rfl
  · intro argv0 st1 hs hg h1
    exact history_to_native db translate argv0 argv f st1 hs hg h1

theorem history_native_listing_witness :
    is_bytes "2".toList ∧ is_native_verb "2".toList = false ∧
      history_native store3 false ⟨false, false, false⟩ ["history".toList] =
        (print_history store3 false false UINT_MAX false, 0) ∧
      history_native store3 false ⟨false, false, false⟩ ["history".toList, "2".toList] =
        (print_history store3 false false 2 false, 0) ∧
      history store3 false getopt_start ["history".toList, "2x".toList] = ([event.help], 1) ∧
      history store3 false getopt_start ["history".toList, "2".toList, "3".toList] =
        ([event.help], 1) :=
  ⟨by decide, by decide, by decide,
    ((history_native_listing store3 false ⟨false, false, false⟩
      ["history".toList, "2".toList] (by decide) (by decide)).2.1 rfl (by decide)).trans
      (by decide),
    by decide, by decide⟩

/-- C16, as stated, fails: the ordinal 100000 takes six characters, so the
field is wider than 5 and the text starts one column further right than for
the ordinal 99999. -/
theorem format_line_wide_ordinal :
    (fmt_5u 100000).length = 6 ∧
      format_line false 100000 (bytes "dir") = bytes "100000  dir" ∧
      format_line false 99999 (bytes "dir") = bytes "99999  dir" := by
  decide

/-- C16, amended: in bare mode the text handed to the line codec is exactly the
line; otherwise it is the decimal ordinal right-aligned in a field of at least
5 characters (exactly 5 for ordinals up to 99999, so that the text starts at
column 8), two spaces, and the line. -/
theorem format_line_layout (i : Nat) (s : List Nat) (hs : nul_free s) :
    format_line true i s = s ∧
      format_line false i s = fmt_5u i ++ [32, 32] ++ s ∧
      fmt_5u i = List.replicate (5 - (bytes (toString i)).length) 32 ++ bytes (toString i) ∧
      5 ≤ (fmt_5u i).length ∧
      (i ≤ 99999 → (fmt_5u i).length = 5) := by
  have hlen : (fmt_5u i).length = (5 - (fmt_u i).length) + (fmt_u i).length := by
    unfold fmt_5u
    simp
  refine ⟨?_, ?_, rfl, ?_, ?_⟩
  · unfold format_line
    simp only [if_true, c_str_nul_free s hs]
  · unfold format_line
    simp only [Bool.false_eq_true, if_false, c_str_nul_free s hs]
  · omega
  · intro h
    have := fmt_u_length i h
    omega

theorem format_line_layout_witness :
    nul_free (bytes "echo 2") ∧
      format_line true 2 (bytes "echo 2") = bytes "echo 2" ∧
      format_line false 2 (bytes "echo 2") = bytes "    2  echo 2" ∧
      format_line false 3 (bytes "echo 3") = bytes "    3  echo 3" ∧
      items (print_history store3 false false 2 false) =
        [event.puts_bytes (bytes "    2  echo 2"), event.puts_bytes (bytes "    3  echo 3")] :=
  ⟨by decide, (format_line_layout 2 (bytes "echo 2") (by decide)).1,
    (format_line_layout 2 (bytes "echo 2") (by decide)).2.1.trans (by decide),
    by decide, by decide⟩

/-- C18: two stores with the same sequence of line texts give the same items on
standard output, whatever their bank tags and whatever the diagnostic flag;
with the flag set the run ends with the diagnostic report, whose tally sums to
the number of lines emitted, and nothing before it goes to the diagnostic
stream; with the flag clear nothing goes there at all. -/
theorem listing_ignores_banks (db1 db2 : history_db) (translate bare d1 d2 : Bool)
    (N : Nat) (hv1 : valid_store db1.lines) (hv2 : valid_store db2.lines)
    (hT : db1.lines.length < 4294967296) (hN : N ≤ UINT_MAX)
    (htext : db1.lines.map history_line.text = db2.lines.map history_line.text) :
    items (print_history db1 translate d1 N bare) =
        items (print_history db2 translate d2 N bare) ∧
      (∃ pre num_from,
        print_history db1 translate true N bare = pre ++ diag_report db1 num_from ∧
        (∀ e ∈ pre, ∀ t, e ≠ event.stderr t) ∧
        num_from.1 + num_from.2 = (items (print_history db1 translate true N bare)).length) ∧
      (∀ t, event.stderr t ∉ print_history db1 translate false N bare) := by
  have hlen : db1.lines.length = db2.lines.length := by
    have := congrArg List.length htext
    simpa using this
  refine ⟨?_, ?_, ?_⟩
  · rw [print_history_items db1 translate d1 bare N hv1 hT hN,
      print_history_items db2 translate d2 bare N hv2 (by omega) hN,
      items_of_texts, items_of_texts, List.map_drop, List.map_drop, htext, hlen]
  · obtain ⟨pre, num_from, h1, h2, h3⟩ := print_history_tally db1 translate bare N hv1 hT hN
    refine ⟨pre, num_from, h1, fun e he => (h2 e he).2, ?_⟩
    rw [h3, print_history_items db1 translate true bare N hv1 hT hN]
    simp only [List.length_map, List.enumFrom_length, List.length_drop]
    omega
  · intro t hm
    unfold print_history at hm
    simp only [Bool.false_eq_true, if_false, List.append_nil, List.mem_append,
      List.mem_singleton] at hm
    rcases hm with ((hm | hm) | hm) | hm
    · cases hm
    · split at hm
      · have := List.mem_singleton.mp hm
        cases this
      · cases hm
    · cases hm
    · have := emit_pass_listing _ _ _ _ _ _ _ hm
      cases this

theorem listing_ignores_banks_witness :
    valid_store store3.lines ∧
      items (print_history store3 true true 2 false) =
        items (print_history
          { store3 with lines := store3.lines.map (fun l => { l with bank := 1 - l.bank }) }
          true false 2 false) ∧
      print_history store3 false true 2 true =
        [event.scope_open true, event.read_lines, event.read_lines,
          event.puts_bytes (bytes "echo 2"), event.puts_bytes (bytes "echo 3"),
          event.stderr "... printed 1 lines from master bank\n",
          event.stderr "... printed 1 lines from session bank\n",
          event.load_rl_history false] :=
  ⟨by decide,
    (listing_ignores_banks store3
      { store3 with lines := store3.lines.map (fun l => { l with bank := 1 - l.bank }) }
      true false true false 2 (by decide) (by decide) (by decide) (by decide) (by decide)).1,
    by decide⟩

/-- C19: `dispatch_verb` calls a handler exactly when the verb equals, character
for character, one of the ten names of its table; it then calls the handler of
that entry once, with `optind` set to 1, returns its result and puts `optind`
back; for any other verb no handler runs and the result is 0. -/
theorem dispatch_verb_table (handler : Nat → Nat → List (List Char) → Int × Nat)
    (verb : List Char) (argv : List (List Char)) (optind : Nat) :
    (∀ j, handler_names.get? j = some verb →
        dispatch_verb handler verb argv optind =
          ⟨[(j, 1, argv)], (handler j 1 argv).1, optind, false⟩) ∧
      (verb ∉ handler_names →
        dispatch_verb handler verb argv optind = ⟨[], 0, optind, true⟩) ∧
      ((dispatch_verb handler verb argv optind).calls ≠ [] ↔ verb ∈ handler_names) ∧
      handler_names.length = 10 := by
  have hnd : handler_names.Nodup := by decide
  have hfound : ∀ j, handler_names.get? j = some verb →
      dispatch_verb handler verb argv optind =
        ⟨[(j, 1, argv)], (handler j 1 argv).1, optind, false⟩ := by
    intro j hj
    unfold dispatch_verb
    rw [dispatch_loop_found handler verb argv optind handler_names 0 j hnd hj, Nat.zero_add]
  have hnot : verb ∉ handler_names →
      dispatch_verb handler verb argv optind = ⟨[], 0, optind, true⟩ := by
    intro h
    unfold dispatch_verb
    exact dispatch_loop_unknown handler verb argv optind handler_names 0 h
  refine ⟨hfound, hnot, ?_, by decide⟩
  constructor
  · intro hc
    by_contra hm
    rw [hnot hm] at hc
    exact hc rfl
  · intro hm
    obtain ⟨j, hj⟩ := List.get?_of_mem hm
    rw [hfound j hj]
    simp

theorem dispatch_verb_table_witness :
    dispatch_verb sample_handler "history".toList ["history".toList, "-c".toList] 5 =
        ⟨[(3, 1, ["history".toList, "-c".toList])], 0, 5, false⟩ ∧
      dispatch_verb sample_handler "set".toList ["set".toList] 5 =
        ⟨[(6, 1, ["set".toList])], 7, 5, false⟩ ∧
      dispatch_verb sample_handler "History".toList ["History".toList] 5 =
        ⟨[], 0, 5, true⟩ :=
  ⟨((dispatch_verb_table sample_handler "history".toList
      ["history".toList, "-c".toList] 5).1 3 (by decide)).trans (by decide),
    by decide, by decide⟩

end Clink
